import Mathlib

/-!
Verification of the legal-document analyzer core (shallow embedding).

The Python sources under app/core are embedded as executable Lean
definitions: pure string manipulation is modelled over `List Char`
(Python's str functions are re-implemented structurally so the kernel can
evaluate them), Python float scores are modelled as exact rationals
(every score in the code is a sum of small literals and divisions by
constants), and the regular-expression engine is treated as an external
primitive: every embedded function that calls `re.findall` / `re.finditer` /
`re.sub` takes the matcher as an explicit functional argument, and
fallible calls return `Except`.  Theorems quantify over that matcher
argument, so they hold for the real regex engine in particular.
-/

namespace Legalise

/-! ## Python string primitives over character lists -/

/-- ASCII lower-casing of one character, as Python's str.lower acts on the
ASCII range (all rule keywords in the sources are ASCII). -/
def asciiLower (c : Char) : Char :=
  if 'A' ≤ c ∧ c ≤ 'Z' then Char.ofNat (c.toNat + 32) else c

/-- Python `text.lower()`. -/
def pyLower (s : String) : String := String.mk (s.data.map asciiLower)

/-- Does the character list start with the given pattern list? -/
def listStartsWith : List Char → List Char → Bool
  | _, [] => true
  | [], _ :: _ => false
  | c :: s, d :: pat => c = d && listStartsWith s pat

/-- Is `pat` a contiguous sublist of `s`?  (Python's `in` on strings.) -/
def listIsSub (s pat : List Char) : Bool :=
  if listStartsWith s pat then true
  else match s with
    | [] => false
    | _ :: s' => listIsSub s' pat

/-- Python `sub in s` for strings. -/
def pyIn (sub s : String) : Bool := listIsSub s.data sub.data

/-- Python `text.strip()` on the whitespace characters Lean knows. -/
def pyStripChars (l : List Char) : List Char :=
  ((l.dropWhile Char.isWhitespace).reverse.dropWhile Char.isWhitespace).reverse

/-- Python `text.strip()`. -/
def pyStrip (s : String) : String := String.mk (pyStripChars s.data)

/-- Helper for `pySplitWords`: split a character list at whitespace runs. -/
def wordsAux : List Char → List Char → List (List Char)
  | [], cur => if cur.isEmpty then [] else [cur.reverse]
  | c :: rest, cur =>
    if c.isWhitespace then
      if cur.isEmpty then wordsAux rest [] else cur.reverse :: wordsAux rest []
    else wordsAux rest (c :: cur)

/-- Python `text.split()` with no argument: whitespace runs separate words,
no empty pieces are produced. -/
def pySplitWords (s : String) : List String := (wordsAux s.data []).map String.mk

/-- Helper for `pySet`. -/
def pySetAux (seen : List String) : List String → List String
  | [] => []
  | x :: xs => if seen.contains x then pySetAux seen xs else x :: pySetAux (x :: seen) xs

/-- Python `set(...)` over strings, modelled as exact-equality
deduplication keeping first occurrences (CPython's set iteration order is
unspecified; every property proved about it here is order-insensitive). -/
def pySet (l : List String) : List String := pySetAux [] l

/-- Python `text[a:b]` (indices clamp to the bounds). -/
def pySlice {α : Type} (l : List α) (a b : Nat) : List α := (l.take b).drop a

/-- Python `text[a:b]` on strings. -/
def strSlice (s : String) (a b : Nat) : String := String.mk (pySlice s.data a b)

/-! ## DocumentClassifier (app/core/classifier.py)

`DocumentClassifier.__init__` builds the static rule registry
`self.document_patterns`; dict iteration order is insertion order, so the
registry is a list.  Pattern strings are carried verbatim and only ever
handed to the regex oracle. -/

/-- Rule set of one document type: keywords, regex patterns, weight. -/
structure RuleCfg where
  keywords : List String
  patterns : List String
  weight : ℚ
deriving Repr

/-- Registry `DocumentClassifier.document_patterns`, in declaration order. -/
def documentPatterns : List (String × RuleCfg) :=
  [ ("nda",
     { keywords := ["non-disclosure", "confidentiality", "confidential information",
                    "proprietary information", "trade secrets", "non-disclosure agreement",
                    "confidentiality agreement", "secrecy agreement"],
       patterns := ["non[- ]disclosure", "confidential(?:ity)?",
                    "proprietary\\s+information", "trade\\s+secrets?"],
       weight := 1 }),
    ("employment_contract",
     { keywords := ["employment", "employee", "employer", "job", "position",
                    "salary", "wages", "benefits", "termination", "resignation",
                    "work schedule", "duties", "responsibilities"],
       patterns := ["employment\\s+(?:agreement|contract)", "employee\\s+handbook",
                    "job\\s+description", "salary\\s+and\\s+benefits"],
       weight := 1 }),
    ("service_agreement",
     { keywords := ["service", "services", "provider", "client", "customer",
                    "deliverables", "scope of work", "statement of work",
                    "professional services", "consulting"],
       patterns := ["service\\s+agreement", "professional\\s+services",
                    "scope\\s+of\\s+work", "statement\\s+of\\s+work"],
       weight := 1 }),
    ("lease_agreement",
     { keywords := ["lease", "rent", "tenant", "landlord", "property",
                    "premises", "rental", "lease term", "security deposit",
                    "monthly rent"],
       patterns := ["lease\\s+agreement", "rental\\s+agreement",
                    "landlord\\s+and\\s+tenant", "monthly\\s+rent"],
       weight := 1 }),
    ("purchase_agreement",
     { keywords := ["purchase", "sale", "buyer", "seller", "goods",
                    "merchandise", "purchase price", "delivery",
                    "payment terms", "invoice"],
       patterns := ["purchase\\s+agreement", "sale\\s+agreement",
                    "buyer\\s+and\\s+seller", "purchase\\s+price"],
       weight := 1 }),
    ("partnership_agreement",
     { keywords := ["partnership", "partners", "joint venture", "collaboration",
                    "profit sharing", "equity", "capital contribution",
                    "management", "dissolution"],
       patterns := ["partnership\\s+agreement", "joint\\s+venture",
                    "profit\\s+sharing", "capital\\s+contribution"],
       weight := 1 }),
    ("license_agreement",
     { keywords := ["license", "licensing", "licensor", "licensee",
                    "intellectual property", "copyright", "trademark",
                    "patent", "royalty", "usage rights"],
       patterns := ["license\\s+agreement", "licensing\\s+agreement",
                    "intellectual\\s+property", "usage\\s+rights"],
       weight := 1 }),
    ("loan_agreement",
     { keywords := ["loan", "lender", "borrower", "principal", "interest",
                    "repayment", "default", "collateral", "credit",
                    "promissory note"],
       patterns := ["loan\\s+agreement", "promissory\\s+note",
                    "lender\\s+and\\s+borrower", "interest\\s+rate"],
       weight := 1 }) ]

/-- Per-type entry of the `scores` dict that `classify_document` builds. -/
structure ScoreEntry where
  score : ℚ
  matched_keywords : List String
  matched_patterns : List String
  confidence : ℚ
deriving Repr

/-- Keyword loop of `classify_document`: `score += 1.0` per keyword whose
lower-cased text occurs in the lower-cased document, collecting matches. -/
def scoreKeywords (textLower : String) (kws : List String) : ℚ × List String :=
  kws.foldl
    (fun acc kw =>
      if pyIn (pyLower kw) textLower then (acc.1 + 1, acc.2 ++ [kw]) else acc)
    (0, [])

/-- Pattern loop of `classify_document`: `score += 2.0` per pattern with at
least one `re.findall` match, extending the matched-pattern list with the
match strings.  `findall` is the regex oracle. -/
def scorePatterns (findall : String → String → List String) (textLower : String)
    (pats : List String) (init : ℚ) : ℚ × List String :=
  pats.foldl
    (fun acc p =>
      let ms := findall p textLower
      if ms.isEmpty then acc else (acc.1 + 2, acc.2 ++ ms))
    (init, [])

/-- Score of one registry rule on the lower-cased text, with the final
`score *= config['weight']` and the per-type `confidence` entry. -/
def scoreRule (findall : String → String → List String) (textLower : String)
    (cfg : RuleCfg) : ScoreEntry :=
  let kw := scoreKeywords textLower cfg.keywords
  let pt := scorePatterns findall textLower cfg.patterns kw.1
  let s := pt.1 * cfg.weight
  { score := s, matched_keywords := kw.2, matched_patterns := pt.2,
    confidence := min (s / 10) 1 }

/-- Per-type score table of `classify_document`, in registry order. -/
def classifierScores (findall : String → String → List String) (text : String) :
    List (String × ScoreEntry) :=
  documentPatterns.map (fun tc => (tc.1, scoreRule findall (pyLower text) tc.2))

/-- Python `max(..., key=f)` given a first element: later elements replace
the current best only when strictly greater, so the first maximum wins. -/
def foldMax {α β : Type} [LinearOrder β] (f : α → β) (b : α) (rest : List α) : α :=
  rest.foldl (fun cur x => if f cur < f x then x else cur) b

/-- Python `max(..., key=f)` over a whole list (`none` on the empty list,
where Python raises ValueError). -/
def foldMaxList {α β : Type} [LinearOrder β] (f : α → β) : List α → Option α
  | [] => none
  | b :: rest => some (foldMax f b rest)

/-- Result record of `DocumentClassifier.classify_document`. -/
structure ClassifyResult where
  predicted_type : String
  confidence : ℚ
  is_confident : Bool
  all_scores : List (String × ScoreEntry)
  matched_keywords : List String
  matched_patterns : List String
deriving Repr

/-- `DocumentClassifier.classify_document`.  The `none` branch mirrors the
`except` handler (the only way the body can fail is `max` on an empty score
table, which cannot happen for the static registry). -/
def classifyDocument (findall : String → String → List String) (text : String) :
    ClassifyResult :=
  let scores := classifierScores findall text
  match foldMaxList (fun p => p.2.score) scores with
  | none =>
    { predicted_type := "unknown", confidence := 0, is_confident := false,
      all_scores := [], matched_keywords := [], matched_patterns := [] }
  | some best =>
    let isConf : Bool := decide (2 ≤ best.2.score)
    { predicted_type := if isConf then best.1 else "unknown",
      confidence := best.2.confidence,
      is_confident := isConf,
      all_scores := scores,
      matched_keywords := best.2.matched_keywords,
      matched_patterns := best.2.matched_patterns }

theorem foldMax_cons {α β : Type} [LinearOrder β] (f : α → β) (b x : α) (xs : List α) :
    foldMax f b (x :: xs) = foldMax f (if f b < f x then x else b) xs := rfl

theorem foldMax_spec {α β : Type} [LinearOrder β] (f : α → β) (rest : List α) (b : α) :
    ∃ (k : Nat) (hk : k < (b :: rest).length),
      (b :: rest).get ⟨k, hk⟩ = foldMax f b rest ∧
      (∀ (m : Nat) (hm : m < (b :: rest).length),
          f ((b :: rest).get ⟨m, hm⟩) ≤ f (foldMax f b rest)) ∧
      (∀ (m : Nat) (hm : m < (b :: rest).length),
          m < k → f ((b :: rest).get ⟨m, hm⟩) < f (foldMax f b rest)) := by
  induction rest generalizing b with
  | nil =>
    refine ⟨0, by simp, rfl, ?_, ?_⟩
    · intro m hm
      have hm0 : m = 0 := by simp at hm; omega
      subst hm0
      simp [foldMax]
    · intro m hm hmk
      omega
  | cons x xs ih =>
    rw [foldMax_cons]
    by_cases h : f b < f x
    · rw [if_pos h]
      obtain ⟨k, hk, hget, hle, hlt⟩ := ih x
      have hres : (x :: xs).get ⟨k, hk⟩ = foldMax f x xs := hget
      refine ⟨k + 1, by simpa using hk, by simpa using hget, ?_, ?_⟩
      · intro m hm
        match m with
        | 0 =>
          have hx : f x ≤ f (foldMax f x xs) := by
            have := hle 0 (by simp)
            simpa using this
          exact le_trans (le_of_lt h) hx
        | Nat.succ j =>
          have hj : j < (x :: xs).length := by simp at hm ⊢; omega
          have := hle j hj
          simpa using this
      · intro m hm hmk
        match m with
        | 0 =>
          have hx : f x ≤ f (foldMax f x xs) := by
            have := hle 0 (by simp)
            simpa using this
          exact lt_of_lt_of_le h hx
        | Nat.succ j =>
          have hj : j < (x :: xs).length := by simp at hm ⊢; omega
          have := hlt j hj (by omega)
          simpa using this
    · rw [if_neg h]
      obtain ⟨k, hk, hget, hle, hlt⟩ := ih b
      have hxb : f x ≤ f b := le_of_not_lt h
      match k, hk with
      | 0, hk =>
        have hres : foldMax f b xs = b := by
          have := hget
          simpa using this.symm
        refine ⟨0, by simp, by simpa using hres.symm, ?_, ?_⟩
        · intro m hm
          match m with
          | 0 =>
            have := hle 0 (by simp)
            simpa using this
          | 1 =>
            have h0 : f b ≤ f (foldMax f b xs) := by
              have := hle 0 (by simp); simpa using this
            exact le_trans hxb h0
          | Nat.succ (Nat.succ j) =>
            have hj : j + 1 < (b :: xs).length := by simp at hm ⊢; omega
            have := hle (j + 1) hj
            simpa using this
        · intro m hm hmk
          omega
      | Nat.succ j', hk =>
        refine ⟨j' + 2, by simp at hk ⊢; omega, ?_, ?_, ?_⟩
        · have := hget
          simpa using this
        · intro m hm
          match m with
          | 0 =>
            have := hle 0 (by simp)
            simpa using this
          | 1 =>
            have h0 : f b ≤ f (foldMax f b xs) := by
              have := hle 0 (by simp); simpa using this
            exact le_trans hxb h0
          | Nat.succ (Nat.succ j) =>
            have hj : j + 1 < (b :: xs).length := by simp at hm ⊢; omega
            have := hle (j + 1) hj
            simpa using this
        · intro m hm hmk
          match m with
          | 0 =>
            have := hlt 0 (by simp) (by omega)
            simpa using this
          | 1 =>
            have h0 : f b < f (foldMax f b xs) := by
              have := hlt 0 (by simp) (by omega); simpa using this
            exact lt_of_le_of_lt hxb h0
          | Nat.succ (Nat.succ j) =>
            have hj : j + 1 < (b :: xs).length := by simp at hm ⊢; omega
            have := hlt (j + 1) hj (by omega)
            simpa using this

theorem firstMax_unique {α β : Type} [LinearOrder β] (f : α → β) (l : List α)
    (k₁ k₂ : Nat) (hk₁ : k₁ < l.length) (hk₂ : k₂ < l.length)
    (hle₁ : ∀ (m : Nat) (hm : m < l.length), f (l.get ⟨m, hm⟩) ≤ f (l.get ⟨k₁, hk₁⟩))
    (hlt₁ : ∀ (m : Nat) (hm : m < l.length), m < k₁ → f (l.get ⟨m, hm⟩) < f (l.get ⟨k₁, hk₁⟩))
    (hle₂ : ∀ (m : Nat) (hm : m < l.length), f (l.get ⟨m, hm⟩) ≤ f (l.get ⟨k₂, hk₂⟩))
    (hlt₂ : ∀ (m : Nat) (hm : m < l.length), m < k₂ → f (l.get ⟨m, hm⟩) < f (l.get ⟨k₂, hk₂⟩)) :
    k₁ = k₂ := by
  by_contra hne
  rcases Nat.lt_or_ge k₁ k₂ with h | h
  · exact absurd (hle₁ k₂ hk₂) (not_le.mpr (hlt₂ k₁ hk₁ h))
  · have h' : k₂ < k₁ := by omega
    exact absurd (hle₂ k₁ hk₁) (not_le.mpr (hlt₁ k₂ hk₂ h'))


/-! ## Closed forms of the classifier scoring loops -/

theorem scoreKeywords_go (textLower : String) (kws : List String) (q : ℚ) (acc : List String) :
    kws.foldl
        (fun acc kw =>
          if pyIn (pyLower kw) textLower then (acc.1 + 1, acc.2 ++ [kw]) else acc)
        (q, acc)
      = (q + kws.countP (fun kw => pyIn (pyLower kw) textLower),
         acc ++ kws.filter (fun kw => pyIn (pyLower kw) textLower)) := by
  induction kws generalizing q acc with
  | nil => simp
  | cons k ks ih =>
    by_cases h : pyIn (pyLower k) textLower
    · simp only [List.foldl_cons, h, if_true, ih, List.countP_cons, List.filter_cons,
        Prod.mk.injEq]
      constructor
      · push_cast [h]
        ring
      · simp
    · simp only [List.foldl_cons, h, if_false, ih, List.countP_cons, List.filter_cons,
        Prod.mk.injEq, Bool.false_eq_true]
      constructor
      · push_cast [h]
        ring
      · simp [h]

theorem scoreKeywords_eq (textLower : String) (kws : List String) :
    scoreKeywords textLower kws
      = ((kws.countP (fun kw => pyIn (pyLower kw) textLower) : ℚ),
         kws.filter (fun kw => pyIn (pyLower kw) textLower)) := by
  unfold scoreKeywords
  rw [scoreKeywords_go]
  simp

theorem scorePatterns_go (findall : String → String → List String) (textLower : String)
    (pats : List String) (q : ℚ) (acc : List String) :
    (pats.foldl
        (fun acc p =>
          let ms := findall p textLower
          if ms.isEmpty then acc else (acc.1 + 2, acc.2 ++ ms))
        (q, acc)).1
      = q + 2 * pats.countP (fun p => !(findall p textLower).isEmpty) := by
  induction pats generalizing q acc with
  | nil => simp
  | cons p ps ih =>
    by_cases h : (findall p textLower).isEmpty
    · simp only [List.foldl_cons, h, if_true, ih, List.countP_cons, Bool.not_true,
        Bool.false_eq_true, if_false]
      push_cast
      ring
    · simp only [List.foldl_cons, h, if_false, ih, List.countP_cons, Bool.false_eq_true,
        Bool.not_eq_true, Bool.not_false, if_true]
      push_cast
      ring

theorem scorePatterns_fst (findall : String → String → List String) (textLower : String)
    (pats : List String) (q : ℚ) :
    (scorePatterns findall textLower pats q).1
      = q + 2 * pats.countP (fun p => !(findall p textLower).isEmpty) := by
  unfold scorePatterns
  exact scorePatterns_go findall textLower pats q []

/-- Closed form of one rule's score: 1.0 per matched keyword (each counted
once), 2.0 per pattern with at least one match, times the rule weight. -/
theorem scoreRule_score (findall : String → String → List String) (textLower : String)
    (cfg : RuleCfg) :
    (scoreRule findall textLower cfg).score
      = ((cfg.keywords.countP (fun kw => pyIn (pyLower kw) textLower) : ℚ) * 1
          + (cfg.patterns.countP (fun p => !(findall p textLower).isEmpty) : ℚ) * 2)
        * cfg.weight := by
  unfold scoreRule
  simp only [scorePatterns_fst, scoreKeywords_eq]
  ring

theorem scoreRule_confidence (findall : String → String → List String) (textLower : String)
    (cfg : RuleCfg) :
    (scoreRule findall textLower cfg).confidence
      = min ((scoreRule findall textLower cfg).score / 10) 1 := rfl

/-! ## Shape lemmas for `classifyDocument` -/

theorem classifierScores_length (findall : String → String → List String) (text : String) :
    (classifierScores findall text).length = 8 := by
  simp [classifierScores, documentPatterns]

theorem classifierScores_ne_nil (findall : String → String → List String) (text : String) :
    classifierScores findall text ≠ [] := by
  intro h
  have hlen := classifierScores_length findall text
  rw [h] at hlen
  simp at hlen

theorem classifyDocument_eq (findall : String → String → List String) (text : String)
    (b : String × ScoreEntry) (rest : List (String × ScoreEntry))
    (hbr : classifierScores findall text = b :: rest) :
    classifyDocument findall text =
      { predicted_type :=
          if decide (2 ≤ (foldMax (fun p => p.2.score) b rest).2.score) = true
          then (foldMax (fun p => p.2.score) b rest).1 else "unknown",
        confidence := (foldMax (fun p => p.2.score) b rest).2.confidence,
        is_confident := decide (2 ≤ (foldMax (fun p => p.2.score) b rest).2.score),
        all_scores := b :: rest,
        matched_keywords := (foldMax (fun p => p.2.score) b rest).2.matched_keywords,
        matched_patterns := (foldMax (fun p => p.2.score) b rest).2.matched_patterns } := by
  unfold classifyDocument
  rw [hbr]
  rfl

/-- Every entry of the score table is a `scoreRule` of its registry rule. -/
theorem classifierScores_entry (findall : String → String → List String) (text : String) :
    ∀ e ∈ classifierScores findall text,
      ∃ tc ∈ documentPatterns, e = (tc.1, scoreRule findall (pyLower text) tc.2) := by
  intro e he
  simp only [classifierScores, List.mem_map] at he
  obtain ⟨tc, htc, rfl⟩ := he
  exact ⟨tc, htc, rfl⟩

/-! ## Claim C1 -/

/-- C1: the full-variant classifier's result satisfies the scoring
contract: every registered type's score is 1.0 per keyword that occurs
case-insensitively in the text (each keyword counted at most once) plus
2.0 per regex pattern with at least one match, multiplied by the rule's
weight; every confidence is min(score/10, 1); is_confident holds iff the
best score is at least the 2.0 threshold; and when the threshold is not
reached, predicted_type is "unknown" while the per-type score details
(one entry per registered type) are still returned. -/
theorem classifier_scoring_contract (findall : String → String → List String)
    (text : String) :
    ((classifyDocument findall text).all_scores = classifierScores findall text)
    ∧ (∀ e ∈ (classifyDocument findall text).all_scores,
         ∃ tc ∈ documentPatterns,
           e.1 = tc.1 ∧
           e.2.score =
             ((tc.2.keywords.countP (fun kw => pyIn (pyLower kw) (pyLower text)) : ℚ) * 1
               + (tc.2.patterns.countP (fun p => !(findall p (pyLower text)).isEmpty) : ℚ) * 2)
             * tc.2.weight ∧
           e.2.confidence = min (e.2.score / 10) 1)
    ∧ (∃ best ∈ classifierScores findall text,
         (∀ e ∈ classifierScores findall text, e.2.score ≤ best.2.score)
         ∧ (classifyDocument findall text).confidence = min (best.2.score / 10) 1
         ∧ ((classifyDocument findall text).is_confident = true ↔ 2 ≤ best.2.score)
         ∧ ((classifyDocument findall text).is_confident = false →
              (classifyDocument findall text).predicted_type = "unknown"
              ∧ (classifyDocument findall text).all_scores.length
                  = documentPatterns.length)) := by
  obtain ⟨b, rest, hbr⟩ := List.exists_cons_of_ne_nil (classifierScores_ne_nil findall text)
  have hentry : ∀ e ∈ classifierScores findall text,
      ∃ tc ∈ documentPatterns,
        e.1 = tc.1 ∧
        e.2.score =
          ((tc.2.keywords.countP (fun kw => pyIn (pyLower kw) (pyLower text)) : ℚ) * 1
            + (tc.2.patterns.countP (fun p => !(findall p (pyLower text)).isEmpty) : ℚ) * 2)
          * tc.2.weight ∧
        e.2.confidence = min (e.2.score / 10) 1 := by
    intro e he
    obtain ⟨tc, htc, rfl⟩ := classifierScores_entry findall text e he
    exact ⟨tc, htc, rfl, scoreRule_score findall (pyLower text) tc.2,
      scoreRule_confidence findall (pyLower text) tc.2⟩
  rw [classifyDocument_eq findall text b rest hbr]
  obtain ⟨k, hk, hget, hle, _⟩ := foldMax_spec (fun p : String × ScoreEntry => p.2.score) rest b
  have hmem : foldMax (fun p : String × ScoreEntry => p.2.score) b rest
      ∈ classifierScores findall text := by
    rw [hbr, ← hget]
    exact List.get_mem _ _ _
  refine ⟨hbr.symm, ?_, ?_⟩
  · intro e he
    exact hentry e (by rw [hbr]; exact he)
  · refine ⟨foldMax (fun p : String × ScoreEntry => p.2.score) b rest, hmem, ?_, ?_, ?_, ?_⟩
    · intro e he
      rw [hbr] at he
      obtain ⟨n, hn⟩ := List.mem_iff_get.mp he
      rw [← hn]
      exact hle n.1 n.2
    · obtain ⟨tc, _, _, _, hconf⟩ := hentry _ hmem
      exact hconf
    · simp
    · intro hfalse
      constructor
      · show (if decide
            (2 ≤ (foldMax (fun p : String × ScoreEntry => p.2.score) b rest).2.score) = true
            then (foldMax (fun p : String × ScoreEntry => p.2.score) b rest).1
            else "unknown") = "unknown"
        rw [show (decide
            (2 ≤ (foldMax (fun p : String × ScoreEntry => p.2.score) b rest).2.score)) = false
          from hfalse]
        simp
      · have h1 : (b :: rest).length = (classifierScores findall text).length := by rw [hbr]
        show (b :: rest).length = documentPatterns.length
        rw [h1, classifierScores_length]
        simp [documentPatterns]

/-- Index-level characterization of the classifier's selection: the chosen
entry is the first entry attaining the maximum score, and every result
field derives from it. -/
theorem classifyBest (findall : String → String → List String) (text : String) :
    ∃ (k : Nat) (hk : k < (classifierScores findall text).length),
      (∀ (m : Nat) (hm : m < (classifierScores findall text).length),
         ((classifierScores findall text).get ⟨m, hm⟩).2.score
           ≤ ((classifierScores findall text).get ⟨k, hk⟩).2.score)
      ∧ (∀ (m : Nat) (hm : m < (classifierScores findall text).length), m < k →
           ((classifierScores findall text).get ⟨m, hm⟩).2.score
             < ((classifierScores findall text).get ⟨k, hk⟩).2.score)
      ∧ (classifyDocument findall text).is_confident
          = decide (2 ≤ ((classifierScores findall text).get ⟨k, hk⟩).2.score)
      ∧ (classifyDocument findall text).predicted_type
          = (if decide (2 ≤ ((classifierScores findall text).get ⟨k, hk⟩).2.score) = true
             then ((classifierScores findall text).get ⟨k, hk⟩).1 else "unknown")
      ∧ (classifyDocument findall text).confidence
          = ((classifierScores findall text).get ⟨k, hk⟩).2.confidence := by
  obtain ⟨b, rest, hbr⟩ := List.exists_cons_of_ne_nil (classifierScores_ne_nil findall text)
  obtain ⟨k, hk, hget, hle, hlt⟩ := foldMax_spec (fun p : String × ScoreEntry => p.2.score) rest b
  rw [classifyDocument_eq findall text b rest hbr]
  rw [hbr]
  refine ⟨k, hk, ?_, ?_, by rw [hget], by rw [hget], by rw [hget]⟩
  · intro m hm
    rw [hget]
    exact hle m hm
  · intro m hm hmk
    rw [hget]
    exact hlt m hm hmk

/-! ## Claim C2 -/

/-- C2: when several registered document types attain the same maximum
score, the classifier selects the earliest-declared one: the selected index
k attains the maximum and every index with the same (maximal) score is ≥ k;
when confident, predicted_type is the type name at that index.  The final
conjunct records determinism: the classifier is a pure function, so
repeated runs on identical input return identical results. -/
theorem classifier_tie_break_deterministic (findall : String → String → List String)
    (text : String) :
    (∃ (k : Nat) (hk : k < (classifierScores findall text).length),
       (∀ (m : Nat) (hm : m < (classifierScores findall text).length),
          ((classifierScores findall text).get ⟨m, hm⟩).2.score
            ≤ ((classifierScores findall text).get ⟨k, hk⟩).2.score)
       ∧ (∀ (m : Nat) (hm : m < (classifierScores findall text).length),
            ((classifierScores findall text).get ⟨m, hm⟩).2.score
              = ((classifierScores findall text).get ⟨k, hk⟩).2.score → k ≤ m)
       ∧ ((classifyDocument findall text).is_confident = true →
            (classifyDocument findall text).predicted_type
              = ((classifierScores findall text).get ⟨k, hk⟩).1))
    ∧ classifyDocument findall text = classifyDocument findall text := by
  obtain ⟨k, hk, hle, hlt, hconf, hpred, _⟩ := classifyBest findall text
  refine ⟨⟨k, hk, hle, ?_, ?_⟩, rfl⟩
  · intro m hm heq
    by_contra hneg
    have hmk : m < k := by omega
    exact absurd heq (ne_of_lt (hlt m hm hmk))
  · intro htrue
    rw [hconf] at htrue
    rw [hpred, if_pos htrue]

/-- Selection shift: if two score vectors agree except that index `t`
strictly increased, the new maximum is at least the old one and the new
first-maximum index is either `t` or the old index (with an unchanged
maximum value in the latter case). -/
theorem firstMax_move {α β : Type} [LinearOrder β] (f : α → β) (l₁ l₂ : List α)
    (t k₁ k₂ : Nat)
    (ht : t < l₁.length) (ht₂ : t < l₂.length) (hk₁ : k₁ < l₁.length) (hk₂ : k₂ < l₂.length)
    (hk₁₂ : k₁ < l₂.length)
    (hle₁ : ∀ (m : Nat) (hm : m < l₁.length), f (l₁.get ⟨m, hm⟩) ≤ f (l₁.get ⟨k₁, hk₁⟩))
    (hlt₁ : ∀ (m : Nat) (hm : m < l₁.length), m < k₁ → f (l₁.get ⟨m, hm⟩) < f (l₁.get ⟨k₁, hk₁⟩))
    (hle₂ : ∀ (m : Nat) (hm : m < l₂.length), f (l₂.get ⟨m, hm⟩) ≤ f (l₂.get ⟨k₂, hk₂⟩))
    (hlt₂ : ∀ (m : Nat) (hm : m < l₂.length), m < k₂ → f (l₂.get ⟨m, hm⟩) < f (l₂.get ⟨k₂, hk₂⟩))
    (hlen : ∀ (m : Nat), m < l₁.length ↔ m < l₂.length)
    (hsame : ∀ (m : Nat) (hm₁ : m < l₁.length) (hm₂ : m < l₂.length), m ≠ t →
        f (l₂.get ⟨m, hm₂⟩) = f (l₁.get ⟨m, hm₁⟩))
    (hincr : f (l₁.get ⟨t, ht⟩) < f (l₂.get ⟨t, ht₂⟩)) :
    f (l₁.get ⟨k₁, hk₁⟩) ≤ f (l₂.get ⟨k₂, hk₂⟩)
    ∧ (k₂ = t ∨ (k₂ = k₁ ∧ f (l₂.get ⟨k₂, hk₂⟩) = f (l₁.get ⟨k₁, hk₁⟩))) := by
  have hub : f (l₁.get ⟨k₁, hk₁⟩) ≤ f (l₂.get ⟨k₂, hk₂⟩) := by
    by_cases hkt : k₁ = t
    · subst hkt
      have h1 : f (l₁.get ⟨k₁, hk₁⟩) < f (l₂.get ⟨k₁, hk₁₂⟩) := hincr
      exact le_of_lt (lt_of_lt_of_le h1 (hle₂ k₁ hk₁₂))
    · have h1 : f (l₂.get ⟨k₁, hk₁₂⟩) = f (l₁.get ⟨k₁, hk₁⟩) := hsame k₁ hk₁ hk₁₂ hkt
      rw [← h1]
      exact hle₂ k₁ hk₁₂
  refine ⟨hub, ?_⟩
  rcases lt_trichotomy (f (l₁.get ⟨k₁, hk₁⟩)) (f (l₂.get ⟨t, ht₂⟩)) with hcmp | hcmp | hcmp
  · -- the raised score beats the old maximum, so t is the new first maximum
    left
    refine (firstMax_unique f l₂ k₂ t hk₂ ht₂ hle₂ hlt₂ ?_ ?_)
    · intro m hm
      by_cases hmt : m = t
      · subst hmt
        exact le_refl _
      · have hm₁ : m < l₁.length := (hlen m).mpr hm
        rw [hsame m hm₁ hm hmt]
        exact le_of_lt (lt_of_le_of_lt (hle₁ m hm₁) hcmp)
    · intro m hm hmt'
      have hmt : m ≠ t := by omega
      have hm₁ : m < l₁.length := (hlen m).mpr hm
      rw [hsame m hm₁ hm hmt]
      exact lt_of_le_of_lt (hle₁ m hm₁) hcmp
  · -- the raised score ties the old maximum
    have hk₁t : k₁ ≠ t := by
      intro hkt
      subst hkt
      rw [hcmp] at hincr
      exact lt_irrefl _ hincr
    have hs₂k₁ : f (l₂.get ⟨k₁, hk₁₂⟩) = f (l₁.get ⟨k₁, hk₁⟩) := hsame k₁ hk₁ hk₁₂ hk₁t
    rcases Nat.lt_or_ge t k₁ with htk | htk
    · -- t is declared earlier than the old winner: t wins the tie
      left
      refine (firstMax_unique f l₂ k₂ t hk₂ ht₂ hle₂ hlt₂ ?_ ?_)
      · intro m hm
        by_cases hmt : m = t
        · subst hmt
          exact le_refl _
        · have hm₁ : m < l₁.length := (hlen m).mpr hm
          rw [hsame m hm₁ hm hmt]
          exact le_of_le_of_eq (hle₁ m hm₁) hcmp
      · intro m hm hmt'
        have hmt : m ≠ t := by omega
        have hm₁ : m < l₁.length := (hlen m).mpr hm
        rw [hsame m hm₁ hm hmt]
        rw [← hcmp]
        exact hlt₁ m hm₁ (by omega)
    · -- the old winner is declared earlier: it keeps the selection
      have htk' : k₁ < t := by omega
      have hk₂k₁ : k₂ = k₁ := by
        refine (firstMax_unique f l₂ k₂ k₁ hk₂ hk₁₂ hle₂ hlt₂ ?_ ?_)
        · intro m hm
          by_cases hmt : m = t
          · subst hmt
            rw [hs₂k₁]
            exact le_of_eq hcmp.symm
          · have hm₁ : m < l₁.length := (hlen m).mpr hm
            rw [hsame m hm₁ hm hmt, hs₂k₁]
            exact hle₁ m hm₁
        · intro m hm hmk
          have hmt : m ≠ t := by omega
          have hm₁ : m < l₁.length := (hlen m).mpr hm
          rw [hsame m hm₁ hm hmt, hs₂k₁]
          exact hlt₁ m hm₁ hmk
      right
      subst hk₂k₁
      exact ⟨rfl, hs₂k₁⟩
  · -- the raised score stays below the old maximum: selection unchanged
    have hk₁t : k₁ ≠ t := by
      intro hkt
      subst hkt
      exact absurd hincr (not_lt.mpr (le_of_lt hcmp))
    have hs₂k₁ : f (l₂.get ⟨k₁, hk₁₂⟩) = f (l₁.get ⟨k₁, hk₁⟩) := hsame k₁ hk₁ hk₁₂ hk₁t
    have hk₂k₁ : k₂ = k₁ := by
      refine (firstMax_unique f l₂ k₂ k₁ hk₂ hk₁₂ hle₂ hlt₂ ?_ ?_)
      · intro m hm
        by_cases hmt : m = t
        · subst hmt
          rw [hs₂k₁]
          exact le_of_lt hcmp
        · have hm₁ : m < l₁.length := (hlen m).mpr hm
          rw [hsame m hm₁ hm hmt, hs₂k₁]
          exact hle₁ m hm₁
      · intro m hm hmk
        by_cases hmt : m = t
        · subst hmt
          rw [hs₂k₁]
          exact hcmp
        · have hm₁ : m < l₁.length := (hlen m).mpr hm
          rw [hsame m hm₁ hm hmt, hs₂k₁]
          exact hlt₁ m hm₁ hmk
    right
    subst hk₂k₁
    exact ⟨rfl, hs₂k₁⟩

/-! ## Claim C9: monotonicity in a type's own keyword matches -/

theorem classifierScores_len (findall : String → String → List String) (text : String) :
    (classifierScores findall text).length = documentPatterns.length := by
  simp [classifierScores]

theorem classifierScores_get (findall : String → String → List String) (text : String)
    (m : Nat) (hm : m < documentPatterns.length)
    (hm' : m < (classifierScores findall text).length) :
    (classifierScores findall text).get ⟨m, hm'⟩
      = ((documentPatterns.get ⟨m, hm⟩).1,
         scoreRule findall (pyLower text) (documentPatterns.get ⟨m, hm⟩).2) := by
  simp [classifierScores, List.get_eq_getElem]

/-- Every registered rule has weight 1. -/
theorem documentPatterns_weight : ∀ tc ∈ documentPatterns, tc.2.weight = 1 := by
  intro tc htc
  simp only [documentPatterns, List.mem_cons, List.mem_singleton] at htc
  rcases htc with rfl | rfl | rfl | rfl | rfl | rfl | rfl | rfl | h
  · rfl
  · rfl
  · rfl
  · rfl
  · rfl
  · rfl
  · rfl
  · rfl
  · simp at h

/-- Scores of one rule agree on two texts whose keyword matches and pattern
match emptiness agree for that rule. -/
theorem scoreRule_score_congr (findall : String → String → List String)
    (x y : String) (cfg : RuleCfg)
    (hkwf : cfg.keywords.filter (fun kw => pyIn (pyLower kw) (pyLower x))
          = cfg.keywords.filter (fun kw => pyIn (pyLower kw) (pyLower y)))
    (hpf : ∀ p ∈ cfg.patterns,
        (findall p (pyLower x)).isEmpty = (findall p (pyLower y)).isEmpty) :
    (scoreRule findall (pyLower x) cfg).score = (scoreRule findall (pyLower y) cfg).score := by
  rw [scoreRule_score, scoreRule_score]
  have h1 : cfg.keywords.countP (fun kw => pyIn (pyLower kw) (pyLower x))
      = cfg.keywords.countP (fun kw => pyIn (pyLower kw) (pyLower y)) := by
    rw [List.countP_eq_length_filter, List.countP_eq_length_filter, hkwf]
  have h2 : cfg.patterns.countP (fun p => !(findall p (pyLower x)).isEmpty)
      = cfg.patterns.countP (fun p => !(findall p (pyLower y)).isEmpty) := by
    refine List.countP_congr ?_
    intro p hp
    rw [hpf p hp]
  rw [h1, h2]

/-- C9: with every other type's match content held equal (and the target
type's pattern matches held equal), strictly more matched keywords for the
target type strictly increase its score, and the predicted type either
stays unchanged or becomes the target type. -/
theorem classifier_keyword_monotonicity (findall : String → String → List String)
    (t₁ t₂ : String) (t : Nat) (ht : t < documentPatterns.length)
    (hothers : ∀ (m : Nat) (hm : m < documentPatterns.length), m ≠ t →
        ((documentPatterns.get ⟨m, hm⟩).2.keywords.filter
            (fun kw => pyIn (pyLower kw) (pyLower t₁))
          = (documentPatterns.get ⟨m, hm⟩).2.keywords.filter
              (fun kw => pyIn (pyLower kw) (pyLower t₂)))
        ∧ (∀ p ∈ (documentPatterns.get ⟨m, hm⟩).2.patterns,
             (findall p (pyLower t₁)).isEmpty = (findall p (pyLower t₂)).isEmpty))
    (hpatt : ∀ p ∈ (documentPatterns.get ⟨t, ht⟩).2.patterns,
        (findall p (pyLower t₁)).isEmpty = (findall p (pyLower t₂)).isEmpty)
    (hkw : (documentPatterns.get ⟨t, ht⟩).2.keywords.countP
             (fun kw => pyIn (pyLower kw) (pyLower t₁))
         < (documentPatterns.get ⟨t, ht⟩).2.keywords.countP
             (fun kw => pyIn (pyLower kw) (pyLower t₂))) :
    (scoreRule findall (pyLower t₁) (documentPatterns.get ⟨t, ht⟩).2).score
      < (scoreRule findall (pyLower t₂) (documentPatterns.get ⟨t, ht⟩).2).score
    ∧ ((classifyDocument findall t₂).predicted_type
         = (classifyDocument findall t₁).predicted_type
       ∨ (classifyDocument findall t₂).predicted_type
           = (documentPatterns.get ⟨t, ht⟩).1) := by
  have hwt : (documentPatterns.get ⟨t, ht⟩).2.weight = 1 :=
    documentPatterns_weight _ (List.get_mem _ _ _)
  have hpt : (documentPatterns.get ⟨t, ht⟩).2.patterns.countP
        (fun p => !(findall p (pyLower t₁)).isEmpty)
      = (documentPatterns.get ⟨t, ht⟩).2.patterns.countP
        (fun p => !(findall p (pyLower t₂)).isEmpty) := by
    refine List.countP_congr ?_
    intro p hp
    rw [hpatt p hp]
  have hscore_t :
      (scoreRule findall (pyLower t₁) (documentPatterns.get ⟨t, ht⟩).2).score
        < (scoreRule findall (pyLower t₂) (documentPatterns.get ⟨t, ht⟩).2).score := by
    rw [scoreRule_score, scoreRule_score, hwt, hpt]
    have hq : ((documentPatterns.get ⟨t, ht⟩).2.keywords.countP
          (fun kw => pyIn (pyLower kw) (pyLower t₁)) : ℚ)
        < ((documentPatterns.get ⟨t, ht⟩).2.keywords.countP
          (fun kw => pyIn (pyLower kw) (pyLower t₂)) : ℚ) := by
      exact_mod_cast hkw
    linarith
  refine ⟨hscore_t, ?_⟩
  obtain ⟨k₁, hk₁, hle₁, hlt₁, hcf₁, hpd₁, _⟩ := classifyBest findall t₁
  obtain ⟨k₂, hk₂, hle₂, hlt₂, hcf₂, hpd₂, _⟩ := classifyBest findall t₂
  have hlen₁ := classifierScores_len findall t₁
  have hlen₂ := classifierScores_len findall t₂
  have hkd₁ : k₁ < documentPatterns.length := by omega
  have hkd₂ : k₂ < documentPatterns.length := by omega
  have htl₁ : t < (classifierScores findall t₁).length := by omega
  have htl₂ : t < (classifierScores findall t₂).length := by omega
  have hk₁₂ : k₁ < (classifierScores findall t₂).length := by omega
  have hsame : ∀ (m : Nat) (hm₁ : m < (classifierScores findall t₁).length)
      (hm₂ : m < (classifierScores findall t₂).length), m ≠ t →
      ((classifierScores findall t₂).get ⟨m, hm₂⟩).2.score
        = ((classifierScores findall t₁).get ⟨m, hm₁⟩).2.score := by
    intro m hm₁ hm₂ hmt
    have hmd : m < documentPatterns.length := by omega
    rw [classifierScores_get findall t₁ m hmd hm₁, classifierScores_get findall t₂ m hmd hm₂]
    exact (scoreRule_score_congr findall t₁ t₂ _ (hothers m hmd hmt).1 (hothers m hmd hmt).2).symm
  have hincr : ((classifierScores findall t₁).get ⟨t, htl₁⟩).2.score
      < ((classifierScores findall t₂).get ⟨t, htl₂⟩).2.score := by
    rw [classifierScores_get findall t₁ t ht htl₁, classifierScores_get findall t₂ t ht htl₂]
    exact hscore_t
  obtain ⟨hub, hmove⟩ := firstMax_move (fun p : String × ScoreEntry => p.2.score)
    (classifierScores findall t₁) (classifierScores findall t₂) t k₁ k₂
    htl₁ htl₂ hk₁ hk₂ hk₁₂ hle₁ hlt₁ hle₂ hlt₂ (fun m => by omega) hsame hincr
  by_cases hc₂ : 2 ≤ ((classifierScores findall t₂).get ⟨k₂, hk₂⟩).2.score
  · -- the second run is confident
    rcases hmove with hk₂t | ⟨hk₂k₁, hMeq⟩
    · -- the selection moved to the target type
      right
      rw [hpd₂, if_pos (by simpa using hc₂)]
      subst hk₂t
      rw [classifierScores_get findall t₂ k₂ hkd₂ hk₂]
    · -- the selection is unchanged and so is the maximum: both confident
      left
      have hc₁ : 2 ≤ ((classifierScores findall t₁).get ⟨k₁, hk₁⟩).2.score := by
        rw [← hMeq]
        exact hc₂
      rw [hpd₂, if_pos (by simpa using hc₂), hpd₁, if_pos (by simpa using hc₁)]
      subst hk₂k₁
      rw [classifierScores_get findall t₂ k₂ hkd₂ hk₂,
        classifierScores_get findall t₁ k₂ hkd₂ hk₁]
  · -- the second run is not confident; then neither was the first
    left
    have hc₁ : ¬ 2 ≤ ((classifierScores findall t₁).get ⟨k₁, hk₁⟩).2.score := by
      intro hcon
      exact hc₂ (le_trans hcon hub)
    rw [hpd₂, if_neg (by simpa using hc₂), hpd₁, if_neg (by simpa using hc₁)]

/-- Witness for C9 at a concrete input: the empty text versus the text
"employment", raising only the employment_contract type's keyword matches,
with the constant-empty regex oracle. -/
theorem classifier_keyword_monotonicity_witness :
    (scoreRule (fun _ _ => ([] : List String)) (pyLower "")
        (documentPatterns.get ⟨1, by decide⟩).2).score
      < (scoreRule (fun _ _ => ([] : List String)) (pyLower "employment")
        (documentPatterns.get ⟨1, by decide⟩).2).score
    ∧ ((classifyDocument (fun _ _ => ([] : List String)) "employment").predicted_type
         = (classifyDocument (fun _ _ => ([] : List String)) "").predicted_type
       ∨ (classifyDocument (fun _ _ => ([] : List String)) "employment").predicted_type
           = (documentPatterns.get ⟨1, by decide⟩).1) :=
  classifier_keyword_monotonicity (fun _ _ => []) "" "employment" 1 (by decide)
    (by decide) (by decide) (by decide)

/-! ## MinimalLegalDocumentAnalyzer._classify_document (analyzer_minimal.py)

The lightweight classifier adds the number of regex match occurrences per
pattern; `findallCount p textLower` stands for `len(re.findall(p, text_lower))`.
Python's float division raises ZeroDivisionError when the divisor
`len(text.split()) / 100` is zero, i.e. exactly when the cleaned text has no
words; the embedding returns `Except.error` there. -/

/-- Registry `MinimalLegalDocumentAnalyzer.document_patterns`. -/
def minDocumentPatterns : List (String × List String) :=
  [ ("nda",
     ["non.?disclosure", "confidential", "proprietary", "trade secret",
      "confidentiality agreement"]),
    ("employment_contract",
     ["employment", "employee", "employer", "salary", "compensation",
      "job description", "work agreement"]),
    ("service_agreement",
     ["service", "provider", "client", "deliverable", "scope of work",
      "consulting", "professional services"]),
    ("lease_agreement",
     ["lease", "rent", "tenant", "landlord", "property", "rental agreement"]),
    ("purchase_agreement",
     ["purchase", "buyer", "seller", "sale", "goods", "sales agreement"]) ]

/-- Result record of `_classify_document` (lightweight variant). -/
structure MinClassifyResult where
  predicted_type : String
  confidence : ℚ
  is_confident : Bool
  scores : List (String × Nat)
deriving Repr

/-- `MinimalLegalDocumentAnalyzer._classify_document`.  The scores loop and
the `max` selection happen first; computing the confidence then divides by
`len(text.split()) / 100`, which raises when the text has no words. -/
def minClassify (findallCount : String → String → Nat) (text : String) :
    Except String MinClassifyResult :=
  let textLower := pyLower text
  let scores := minDocumentPatterns.map
    (fun tp => (tp.1, tp.2.foldl (fun acc p => acc + findallCount p textLower) 0))
  let pm : String × Nat :=
    match foldMaxList (fun p : String × Nat => p.2) scores with
    | some best => best
    | none => ("unknown", 0)
  if (pySplitWords text).length = 0 then
    Except.error "ZeroDivisionError: float division by zero"
  else
    let conf : ℚ := min ((pm.2 : ℚ) / (((pySplitWords text).length : ℚ) / 100)) 1
    Except.ok
      { predicted_type := pm.1,
        confidence := conf,
        is_confident := decide ((3 : ℚ)/10 < conf),
        scores := scores }

/-! ## Claim C3 -/

/-- C3 (code-bug evidence): on the empty string input, the lightweight
classifier does not return "unknown" with confidence 0 as specified: its
confidence computation divides the best score by `len(text.split()) / 100`,
which is zero for the empty string, so the call raises ZeroDivisionError,
whatever the regex oracle returns. -/
theorem min_classifier_empty_raises (findallCount : String → String → Nat) :
    minClassify findallCount ""
      = Except.error "ZeroDivisionError: float division by zero" := rfl

/-! ## FallbackSimplifier (app/core/simplifier_fallback.py)

`re.sub` is the fallible primitive: the oracle `reSub pattern replacement
input` models one substitution call and may fail with any exception, which
is what the method's `except` handler absorbs.  The `simplification_rules`
dict literal repeats the key `heretofore`; Python keeps the first insertion
position with the last assigned value ("until now"), so the table below has
it once, first, with that value. -/

/-- Table `FallbackSimplifier.simplification_rules`, in dict order. -/
def simplificationRules : List (String × String) :=
  [ ("\\bheretofore\\b", "until now"),
    ("\\bhereinafter\\b", "from now on"),
    ("\\bwhereas\\b", "since"),
    ("\\btherefore\\b", "so"),
    ("\\bnotwithstanding\\b", "despite"),
    ("\\bpursuant to\\b", "according to"),
    ("\\bin consideration of\\b", "in exchange for"),
    ("\\bshall\\b", "will"),
    ("\\bmay not\\b", "cannot"),
    ("\\bprovided that\\b", "if"),
    ("\\bsubject to\\b", "depending on"),
    ("\\bin the event that\\b", "if"),
    ("\\bfor the purpose of\\b", "to"),
    ("\\bwith respect to\\b", "about"),
    ("\\bin accordance with\\b", "following"),
    ("\\bprior to\\b", "before"),
    ("\\bsubsequent to\\b", "after"),
    ("\\bin lieu of\\b", "instead of"),
    ("\\bby virtue of\\b", "because of"),
    ("\\bnull and void\\b", "invalid"),
    ("\\beach and every\\b", "all"),
    ("\\bfull and complete\\b", "complete"),
    ("\\bfinal and binding\\b", "final"),
    ("\\bterms and conditions\\b", "terms"),
    ("\\bforthwith\\b", "immediately"),
    ("\\bhenceforth\\b", "from now on") ]

/-- Table `FallbackSimplifier.structure_rules`. -/
def structureRules : List (String × String) :=
  [ ("\\bthe said\\b", "the"),
    ("\\bsuch\\s+(\\w+)\\s+as\\s+aforesaid\\b", "the \\1"),
    ("\\baforesaid\\b", "mentioned"),
    ("\\bis hereby\\s+(\\w+ed)\\b", "is \\1"),
    ("\\bshall be deemed to be\\b", "is considered"),
    ("\\bshall be construed as\\b", "means") ]

/-- `FallbackSimplifier._apply_simplification_rules`: both substitution
tables applied in order, then whitespace collapsed and the ends stripped. -/
def applySimplificationRules (reSub : String → String → String → Except String String)
    (text : String) : Except String String := do
  let s1 ← simplificationRules.foldlM (fun acc pr => reSub pr.1 pr.2 acc) text
  let s2 ← structureRules.foldlM (fun acc pr => reSub pr.1 pr.2 acc) s1
  let s3 ← reSub "\\s+" " " s2
  pure (pyStrip s3)

/-- `FallbackSimplifier._generate_plain_english_summary` (pure keyword
cascade; only the piece of the clause before the first sentence terminator
is consumed on the fallback path). -/
def generatePlainEnglishSummary (clause : String) : String :=
  let clauseLower := pyLower clause
  if pyIn "payment" clauseLower || pyIn "pay" clauseLower || pyIn "$" clause then
    "This clause deals with payment terms and amounts."
  else if pyIn "termination" clauseLower || pyIn "terminate" clauseLower then
    "This clause explains how the agreement can be ended."
  else if pyIn "confidential" clauseLower || pyIn "non-disclosure" clauseLower then
    "This clause requires keeping information secret."
  else if pyIn "liability" clauseLower || pyIn "responsible" clauseLower then
    "This clause defines who is responsible for what."
  else if pyIn "intellectual property" clauseLower || pyIn "copyright" clauseLower then
    "This clause deals with ownership of ideas and creations."
  else if pyIn "dispute" clauseLower || pyIn "arbitration" clauseLower then
    "This clause explains how disagreements will be resolved."
  else if pyIn "force majeure" clauseLower || pyIn "act of god" clauseLower then
    "This clause covers situations beyond anyone's control."
  else
    let first := pyStrip (String.mk (clause.data.takeWhile
      (fun c => !(c = '.' || c = '!' || c = '?'))))
    if 20 < first.length then "In simple terms: " ++ pyLower first ++ "."
    else "This clause contains important legal terms and conditions."

/-- `FallbackSimplifier._extract_key_points`; the scans for money, time,
percent go through the regex oracle, the obligation/condition scans are
substring tests.  `set(...)` keeps each element once (first occurrence
order; the scanned word lists are duplicate-free anyway). -/
def extractKeyPoints (findall : String → String → List String) (clause : String) :
    List String :=
  let money := findall "\\$[\\d,]+(?:\\.\\d\x7b2\x7d)?" clause
  let l1 : List String :=
    if money.isEmpty then [] else ["Involves money: " ++ String.intercalate ", " money]
  let time := findall "\\b\\d+\\s+(?:days?|weeks?|months?|years?)\\b" clause
  let l2 : List String :=
    if time.isEmpty then [] else ["Time periods: " ++ String.intercalate ", " time]
  let percent := findall "\\d+(?:\\.\\d+)?%" clause
  let l3 : List String :=
    if percent.isEmpty then [] else ["Percentages: " ++ String.intercalate ", " percent]
  let obligations := ["must", "shall", "will", "required", "obligated"].filter
    (fun w => pyIn w (pyLower clause))
  let l4 : List String :=
    if obligations.isEmpty then []
    else ["Creates obligations: " ++ String.intercalate ", " (pySet obligations)]
  let conditions := ["if", "unless", "provided", "subject to", "in case"].filter
    (fun w => pyIn w (pyLower clause))
  let l5 : List String :=
    if conditions.isEmpty then []
    else ["Has conditions: " ++ String.intercalate ", " (pySet conditions)]
  (l1 ++ l2 ++ l3 ++ l4 ++ l5).take 5

/-- `FallbackSimplifier._calculate_simplification_score`: weighted blend of
word-count reduction (0.3) and average-word-length reduction (0.7), clamped
to [0, 1].  All divisions are guarded by positivity tests, so the inner
handler returning 0.1 is unreachable. -/
def calcSimplificationScore (original simplified : String) : ℚ :=
  let ow := (pySplitWords original).length
  let sw := (pySplitWords simplified).length
  let oAvg : ℚ :=
    if 0 < ow then (((pySplitWords original).map String.length).sum : ℚ) / ow else 0
  let sAvg : ℚ :=
    if 0 < sw then (((pySplitWords simplified).map String.length).sum : ℚ) / sw else 0
  let wordReduction : ℚ := if 0 < ow then ((ow : ℚ) - sw) / ow else 0
  let complexityReduction : ℚ := if 0 < oAvg then (oAvg - sAvg) / oAvg else 0
  max 0 (min 1 (wordReduction * (3/10) + complexityReduction * (7/10)))

/-- Result record of `simplify_clause`. -/
structure SimplifiedClause where
  original_clause : String
  simplified_clause : String
  plain_english_summary : String
  key_points : List String
  simplification_score : ℚ
  method : String
deriving Repr

/-- `FallbackSimplifier.simplify_clause`: the whole body runs under
`try`; the only fallible steps are the `re.sub` calls inside
`_apply_simplification_rules` (the remaining steps are pure), and any
failure is absorbed by the handler, which returns the clause argument
untouched with score 0.0 and no key points. -/
def fallbackSimplifyClause (reSub : String → String → String → Except String String)
    (findall : String → String → List String) (clause : String) : SimplifiedClause :=
  match applySimplificationRules reSub (pyStrip clause) with
  | Except.ok simplified =>
    { original_clause := pyStrip clause,
      simplified_clause := simplified,
      plain_english_summary := generatePlainEnglishSummary simplified,
      key_points := extractKeyPoints findall simplified,
      simplification_score := calcSimplificationScore (pyStrip clause) simplified,
      method := "rule_based" }
  | Except.error _ =>
    { original_clause := clause,
      simplified_clause := clause,
      plain_english_summary := "Unable to simplify this clause.",
      key_points := [],
      simplification_score := 0,
      method := "fallback" }

/-! ## Claim C4 -/

/-- C4 (amended): whenever clause simplification hits an internal error,
no exception reaches the caller; the fallback result is the ORIGINAL
clause untouched (not passed through the substitution table), its
simplification score is 0.0 (not the 0.1 floor), and its key-point list is
empty. -/
theorem fallback_simplifier_error_path
    (reSub : String → String → String → Except String String)
    (findall : String → String → List String) (clause : String) (e : String)
    (herr : applySimplificationRules reSub (pyStrip clause) = Except.error e) :
    fallbackSimplifyClause reSub findall clause =
      { original_clause := clause,
        simplified_clause := clause,
        plain_english_summary := "Unable to simplify this clause.",
        key_points := [],
        simplification_score := 0,
        method := "fallback" } := by
  unfold fallbackSimplifyClause
  rw [herr]

/-- Witness for C4 at a concrete input: a substitution oracle that fails
immediately, on a clause the substitution table would have changed. -/
theorem fallback_simplifier_error_path_witness :
    fallbackSimplifyClause (fun _ _ _ => Except.error "MemoryError") (fun _ _ => [])
        "The party shall pay $100." =
      { original_clause := "The party shall pay $100.",
        simplified_clause := "The party shall pay $100.",
        plain_english_summary := "Unable to simplify this clause.",
        key_points := [],
        simplification_score := 0,
        method := "fallback" } :=
  fallback_simplifier_error_path (fun _ _ _ => Except.error "MemoryError") (fun _ _ => [])
    "The party shall pay $100." "MemoryError" rfl

/-- Counterexample to C4 as stated: on the fallback path the score is 0.0,
not the 0.1 floor, and the simplified text is the raw clause (with
"shall" still in it), not the clause passed through the substitution
table. -/
theorem fallback_simplifier_score_floor_counterexample :
    (fallbackSimplifyClause (fun _ _ _ => Except.error "MemoryError") (fun _ _ => [])
        "The party shall pay $100.").simplification_score = 0
    ∧ ((0 : ℚ) ≠ 1/10)
    ∧ (fallbackSimplifyClause (fun _ _ _ => Except.error "MemoryError") (fun _ _ => [])
        "The party shall pay $100.").simplified_clause = "The party shall pay $100." := by
  refine ⟨rfl, by norm_num, rfl⟩

/-! ## OptimizedLegalDocumentAnalyzer._simplify_clauses_batch_async
(app/core/analyzer_optimized.py)

The loop `for i in range(0, min(len(clauses), 10), batch_size)` with the
default batch size 3 is embedded as a recursion stepping the index by 3.
`asyncio.gather(..., return_exceptions=True)` returns one result per task
in submission order; a per-clause simplification is the oracle
`String → Except E R`, failures being the exceptions gather captures.
The inter-batch `asyncio.sleep(0.1)` has no effect on the value.  The
surrounding `try` never fires: the loop body itself cannot raise. -/

/-- Filter loop over one batch's gather results: exceptions are dropped,
successes are appended in order. -/
def gatherFilter {E R : Type} : List (Except E R) → List R
  | [] => []
  | Except.ok v :: rest => v :: gatherFilter rest
  | Except.error _ :: rest => gatherFilter rest

/-- Batched loop of `_simplify_clauses_batch_async`. -/
def simplifyBatchGo {E R : Type} (oracle : String → Except E R) (clauses : List String)
    (m i : Nat) : List R :=
  if h : i < m then
    gatherFilter ((pySlice clauses i (i + 3)).map oracle)
      ++ simplifyBatchGo oracle clauses m (i + 3)
  else []
termination_by m - i
decreasing_by omega

/-- `OptimizedLegalDocumentAnalyzer._simplify_clauses_batch_async`. -/
def simplifyClausesBatchAsync {E R : Type} (oracle : String → Except E R)
    (clauses : List String) : List R :=
  simplifyBatchGo oracle clauses (min clauses.length 10) 0

/-- Index after the loop's final batch, starting from `i`. -/
def batchEnd (m i : Nat) : Nat :=
  if h : i < m then batchEnd m (i + 3) else i
termination_by m - i
decreasing_by omega

theorem batchEnd_ge (m i : Nat) : i ≤ batchEnd m i := by
  by_cases h : i < m
  · rw [batchEnd, dif_pos h]
    have := batchEnd_ge m (i + 3)
    omega
  · rw [batchEnd, dif_neg h]
termination_by m - i
decreasing_by omega

theorem batchEnd_ge_m (m i : Nat) (h : i < m) : m ≤ batchEnd m i := by
  rw [batchEnd, dif_pos h]
  by_cases h3 : i + 3 < m
  · exact batchEnd_ge_m m (i + 3) h3
  · rw [batchEnd, dif_neg h3]
    omega
termination_by m - i
decreasing_by omega

theorem gatherFilter_map {E R : Type} (oracle : String → Except E R) (l : List String) :
    gatherFilter (l.map oracle) = l.filterMap (fun c => (oracle c).toOption) := by
  induction l with
  | nil => rfl
  | cons c cs ih =>
    cases hc : oracle c with
    | ok v => simp [gatherFilter, hc, ih, Except.toOption]
    | error e => simp [gatherFilter, hc, ih, Except.toOption]

theorem pySlice_append {α : Type} (l : List α) (a b c : Nat) (hab : a ≤ b) (hbc : b ≤ c) :
    pySlice l a b ++ pySlice l b c = pySlice l a c := by
  unfold pySlice
  have hbt : l.take b = (l.take c).take b := by
    rw [List.take_take, Nat.min_eq_left hbc]
  rw [hbt]
  have key : ((l.take c).take b ++ (l.take c).drop b).drop a
      = ((l.take c).take b).drop a
        ++ ((l.take c).drop b).drop (a - ((l.take c).take b).length) :=
    List.drop_append_eq_append_drop
  rw [List.take_append_drop] at key
  by_cases hA : a ≤ (l.take c).length
  · have hA' : a ≤ c ⊓ l.length := by
      rw [List.length_take] at hA
      exact hA
    have h0 : a - ((l.take c).take b).length = 0 := by
      refine Nat.sub_eq_zero_of_le ?_
      rw [List.length_take, List.length_take]
      exact le_min hab hA'
    rw [h0, List.drop_zero] at key
    exact key.symm
  · push_neg at hA
    have h1 : ((l.take c).take b).drop a = [] := by
      apply List.drop_eq_nil_of_le
      rw [List.length_take]
      omega
    have h2 : (l.take c).drop b = [] := by
      apply List.drop_eq_nil_of_le
      omega
    have h3 : (l.take c).drop a = [] := by
      apply List.drop_eq_nil_of_le
      omega
    rw [h1, h2, h3]
    rfl

/-- Loop characterization: the batched loop from index `i` processes the
slice up to `batchEnd` and keeps exactly the successful results, in input
order. -/
theorem simplifyBatchGo_spec {E R : Type} (oracle : String → Except E R)
    (clauses : List String) (m i : Nat) :
    simplifyBatchGo oracle clauses m i
      = (pySlice clauses i (batchEnd m i)).filterMap (fun c => (oracle c).toOption) := by
  by_cases h : i < m
  · rw [simplifyBatchGo, dif_pos h, batchEnd, dif_pos h, gatherFilter_map,
      simplifyBatchGo_spec oracle clauses m (i + 3), ← List.filterMap_append]
    congr 1
    exact pySlice_append clauses i (i + 3) (batchEnd m (i + 3)) (by omega) (batchEnd_ge m (i + 3))
  · rw [simplifyBatchGo, dif_neg h, batchEnd, dif_neg h]
    have hnil : pySlice clauses i i = [] := by
      unfold pySlice
      apply List.drop_eq_nil_of_le
      rw [List.length_take]
      omega
    rw [hnil]
    rfl
termination_by m - i
decreasing_by omega

theorem batchEnd_ten : batchEnd 10 0 = 12 := by
  rw [batchEnd, dif_pos (by norm_num), batchEnd, dif_pos (by norm_num), batchEnd,
    dif_pos (by norm_num), batchEnd, dif_pos (by norm_num), batchEnd, dif_neg (by norm_num)]

/-! ## Claim C7 -/

/-- C7: batched simplification equals filtering the per-clause outcomes of
the processed prefix: a clause whose simplification fails is excluded
without aborting the batch or the pipeline, the successful results keep
the input clauses' relative order (they are exactly a `filterMap` of the
input prefix), and the result can be shorter than the clause list without
this being an overall failure. -/
theorem batch_simplification_absorbs_failures {E R : Type} (oracle : String → Except E R)
    (clauses : List String) :
    simplifyClausesBatchAsync oracle clauses
      = (clauses.take 12).filterMap (fun c => (oracle c).toOption)
    ∧ (simplifyClausesBatchAsync oracle clauses).length ≤ clauses.length := by
  have heq : simplifyClausesBatchAsync oracle clauses
      = (clauses.take (batchEnd (min clauses.length 10) 0)).filterMap
          (fun c => (oracle c).toOption) := by
    unfold simplifyClausesBatchAsync
    rw [simplifyBatchGo_spec]
    rfl
  have htake : clauses.take (batchEnd (min clauses.length 10) 0) = clauses.take 12 := by
    by_cases hn : clauses.length ≤ 10
    · have hm : min clauses.length 10 = clauses.length := Nat.min_eq_left hn
      rw [hm]
      by_cases h0 : 0 < clauses.length
      · have hbe : clauses.length ≤ batchEnd clauses.length 0 := batchEnd_ge_m _ _ h0
        rw [List.take_of_length_le hbe, List.take_of_length_le (by omega)]
      · have hnil : clauses = [] := List.length_eq_zero.mp (by omega)
        subst hnil
        simp
    · have hm : min clauses.length 10 = 10 := Nat.min_eq_right (by omega)
      rw [hm, batchEnd_ten]
  refine ⟨by rw [heq, htake], ?_⟩
  rw [heq, htake]
  calc ((clauses.take 12).filterMap (fun c => (oracle c).toOption)).length
      ≤ (clauses.take 12).length := List.length_filterMap_le _ _
    _ ≤ clauses.length := by
        rw [List.length_take]
        omega

/-! ## OptimizedLegalDocumentAnalyzer._chunk_text (app/core/analyzer_optimized.py)

The while loop is embedded with the call-site parameters (chunk_size 5000,
overlap 500); `text.rfind('.', end - 200, end)` is the highest index of a
period in that half-open range.  Termination of the loop is established by
the well-founded definition itself: `chunkNext_gt` shows every iteration
advances the start strictly. -/

/-- Python `text.rfind(ch, a, b)`: the highest index i with a ≤ i < b and
text[i] = ch, as an Option. -/
def pyRfind (data : List Char) (ch : Char) (a b : Nat) : Option Nat :=
  ((List.range data.length).filter
    (fun i => decide (a ≤ i) && decide (i < b) && (data.get? i == some ch))).getLast?

theorem pyRfind_bounds (data : List Char) (ch : Char) (a b i : Nat)
    (h : pyRfind data ch a b = some i) : a ≤ i ∧ i < b := by
  unfold pyRfind at h
  obtain ⟨hne, heq⟩ := List.mem_getLast?_eq_getLast (Option.mem_def.mpr h)
  have hmem : i ∈ (List.range data.length).filter
      (fun i => decide (a ≤ i) && decide (i < b) && (data.get? i == some ch)) := by
    rw [heq]
    exact List.getLast_mem hne
  have hfil := List.of_mem_filter hmem
  simp only [Bool.and_eq_true, decide_eq_true_eq] at hfil
  exact ⟨hfil.1.1, hfil.1.2⟩

/-- Effective end of the chunk starting at `start`: `start + 5000`, pulled
back to just after the last period found in the final 200 characters
before the cut when the cut is not already past the end. -/
def chunkEnd (data : List Char) (start : Nat) : Nat :=
  let e0 := start + 5000
  if e0 < data.length then
    match pyRfind data '.' (e0 - 200) e0 with
    | some i => i + 1
    | none => e0
  else e0

theorem chunkEnd_lb (data : List Char) (start : Nat) :
    start + 4801 ≤ chunkEnd data start := by
  unfold chunkEnd
  by_cases h : start + 5000 < data.length
  · rw [if_pos h]
    cases hr : pyRfind data '.' (start + 5000 - 200) (start + 5000) with
    | some i =>
      have := pyRfind_bounds data '.' _ _ i hr
      show start + 4801 ≤ i + 1
      omega
    | none =>
      show start + 4801 ≤ start + 5000
      omega
  · rw [if_neg h]
    omega

theorem chunkEnd_ub (data : List Char) (start : Nat) :
    chunkEnd data start ≤ start + 5000 := by
  unfold chunkEnd
  by_cases h : start + 5000 < data.length
  · rw [if_pos h]
    cases hr : pyRfind data '.' (start + 5000 - 200) (start + 5000) with
    | some i =>
      have := pyRfind_bounds data '.' _ _ i hr
      show i + 1 ≤ start + 5000
      omega
    | none =>
      show start + 5000 ≤ start + 5000
      omega
  · rw [if_neg h]

/-- Start of the next chunk: back off by the 500-character overlap unless
the chunk already reached the end of the text. -/
def chunkNext (data : List Char) (start : Nat) : Nat :=
  if chunkEnd data start < data.length then chunkEnd data start - 500
  else chunkEnd data start

theorem chunkNext_gt (data : List Char) (start : Nat) : start < chunkNext data start := by
  have hlb := chunkEnd_lb data start
  unfold chunkNext
  by_cases h : chunkEnd data start < data.length
  · rw [if_pos h]
    omega
  · rw [if_neg h]
    omega

theorem chunkNext_le (data : List Char) (start : Nat) :
    chunkNext data start ≤ chunkEnd data start := by
  unfold chunkNext
  by_cases h : chunkEnd data start < data.length
  · rw [if_pos h]
    omega
  · rw [if_neg h]

/-- While loop of `_chunk_text`. -/
def chunkTextAux (data : List Char) (start : Nat) : List String :=
  if h : start < data.length then
    String.mk (pySlice data start (chunkEnd data start))
      :: chunkTextAux data (chunkNext data start)
  else []
termination_by data.length - start
decreasing_by
  have := chunkNext_gt data start
  omega

/-- `OptimizedLegalDocumentAnalyzer._chunk_text` at the call-site
parameters chunk_size=5000, overlap=500. -/
def chunkText (text : String) : List String := chunkTextAux text.data 0

theorem chunkTextAux_covers (data : List Char) :
    ∀ (n start i : Nat), data.length - start ≤ n → start ≤ i → i < data.length →
      ∃ s e, s ≤ i ∧ i < e ∧ String.mk (pySlice data s e) ∈ chunkTextAux data start := by
  intro n
  induction n with
  | zero =>
    intro start i h1 h2 h3
    omega
  | succ n ih =>
    intro start i h1 h2 h3
    have hs : start < data.length := by omega
    rw [chunkTextAux, dif_pos hs]
    by_cases hie : i < chunkEnd data start
    · exact ⟨start, chunkEnd data start, h2, hie, List.mem_cons_self _ _⟩
    · have hnle := chunkNext_le data start
      have hstep := chunkNext_gt data start
      obtain ⟨s, e, hsi, hie', hmem⟩ := ih (chunkNext data start) i (by omega) (by omega) h3
      exact ⟨s, e, hsi, hie', List.mem_cons_of_mem _ hmem⟩

theorem chunkTextAux_slices (data : List Char) :
    ∀ (n start : Nat), data.length - start ≤ n →
      ∀ c ∈ chunkTextAux data start, ∃ s e, c = String.mk (pySlice data s e) := by
  intro n
  induction n with
  | zero =>
    intro start h1 c hc
    rw [chunkTextAux, dif_neg (by omega)] at hc
    simp at hc
  | succ n ih =>
    intro start h1 c hc
    by_cases hs : start < data.length
    · rw [chunkTextAux, dif_pos hs] at hc
      rcases List.mem_cons.mp hc with hc | hc
      · exact ⟨start, chunkEnd data start, hc⟩
      · have hstep := chunkNext_gt data start
        exact ih (chunkNext data start) (by omega) c hc
    · rw [chunkTextAux, dif_neg hs] at hc
      simp at hc

/-! ## Claim C10 -/

/-- C10: the overlapping-chunk splitter terminates (it is a well-founded
recursion whose start index strictly advances, `chunkNext_gt`), every
character position of the text is covered by at least one chunk (so there
are no gaps), and every chunk is a contiguous slice of the input. -/
theorem chunk_text_covers_and_terminates (text : String) :
    (∀ i, i < text.data.length →
       ∃ s e, s ≤ i ∧ i < e ∧ String.mk (pySlice text.data s e) ∈ chunkText text)
    ∧ (∀ c ∈ chunkText text, ∃ s e, c = String.mk (pySlice text.data s e)) := by
  constructor
  · intro i hi
    exact chunkTextAux_covers text.data text.data.length 0 i (by omega) (by omega) hi
  · intro c hc
    exact chunkTextAux_slices text.data text.data.length 0 (by omega) c hc

/-! ## DocumentParser.extract_clauses (app/core/parser.py) -/

/-- Helper for `pySplitOn`: scan, splitting at each occurrence of `sep`. -/
def splitOnAux (sep : List Char) (s cur : List Char) : List (List Char) :=
  match s with
  | [] => [cur.reverse]
  | c :: rest =>
    if h : listStartsWith (c :: rest) sep ∧ sep ≠ [] then
      cur.reverse :: splitOnAux sep ((c :: rest).drop sep.length) []
    else splitOnAux sep rest (c :: cur)
termination_by s.length
decreasing_by
  · have hsep : 0 < sep.length := List.length_pos.mpr h.2
    simp only [List.length_drop, List.length_cons]
    omega
  · simp only [List.length_cons]
    omega

/-- Python `text.split(sep)` for a non-empty separator. -/
def pySplitOn (s sep : String) : List String := (splitOnAux sep.data s.data []).map String.mk

/-- Split step of `DocumentParser.extract_clauses`: the first indicator
whose split yields more than one part wins; parts are stripped and empty
parts dropped. -/
def extractClausesRaw (text : String) : List String :=
  let p1 := pySplitOn text "\n\n"
  if 1 < p1.length then ((p1.map pyStrip).filter (fun s => s ≠ ""))
  else
    let p2 := pySplitOn text ". "
    if 1 < p2.length then ((p2.map pyStrip).filter (fun s => s ≠ ""))
    else
      let p3 := pySplitOn text "; "
      if 1 < p3.length then ((p3.map pyStrip).filter (fun s => s ≠ ""))
      else []

/-- `DocumentParser.extract_clauses`: indicator split, whole-text fallback,
then the under-50-character filter that is undone when it empties the
list. -/
def extractClauses (text : String) : List String :=
  let clauses := extractClausesRaw text
  let clauses2 := if clauses.isEmpty then [pyStrip text] else clauses
  let meaningful := clauses2.filter (fun c => 50 < c.length)
  if meaningful.isEmpty then clauses2 else meaningful

/-! ## OptimizedLegalDocumentAnalyzer._deduplicate_clauses and the
chunked clause-extraction path -/

/-- Comparison key of `_deduplicate_clauses`: the first 100 characters,
stripped. -/
def first100 (c : String) : String := pyStrip (String.mk (c.data.take 100))

/-- Accumulator loop of `_deduplicate_clauses`. -/
def dedupAux (unique : List String) : List String → List String
  | [] => unique
  | c :: rest =>
    if unique.any (fun e => first100 e == first100 c) then dedupAux unique rest
    else dedupAux (unique ++ [c]) rest

/-- `OptimizedLegalDocumentAnalyzer._deduplicate_clauses`. -/
def deduplicateClauses (clauses : List String) : List String := dedupAux [] clauses

/-- `OptimizedLegalDocumentAnalyzer._extract_clauses_async`: above the
10000-character threshold, the text is chunked, each chunk segmented
independently, the per-chunk clause lists flattened in order and
deduplicated. -/
def extractClausesLarge (text : String) : List String :=
  if 10000 < text.length then
    deduplicateClauses ((chunkText text).map extractClauses).flatten
  else extractClauses text

theorem dedupAux_shape (l : List String) :
    ∀ unique, ∃ s, dedupAux unique l = unique ++ s ∧ s.Sublist l := by
  induction l with
  | nil =>
    intro unique
    exact ⟨[], by simp [dedupAux], List.nil_sublist _⟩
  | cons c cs ih =>
    intro unique
    by_cases h : unique.any (fun e => first100 e == first100 c)
    · obtain ⟨s, hs, hsub⟩ := ih unique
      refine ⟨s, ?_, hsub.cons c⟩
      simpa [dedupAux, h] using hs
    · obtain ⟨s, hs, hsub⟩ := ih (unique ++ [c])
      refine ⟨c :: s, ?_, hsub.cons₂ c⟩
      simp only [dedupAux, h, if_false, Bool.false_eq_true]
      rw [hs, List.append_assoc, List.singleton_append]

theorem dedupAux_contains (l : List String) (unique : List String) :
    ∀ u ∈ unique, u ∈ dedupAux unique l := by
  intro u hu
  obtain ⟨s, hs, _⟩ := dedupAux_shape l unique
  rw [hs]
  exact List.mem_append_left _ hu

theorem dedupAux_pairwise (l : List String) :
    ∀ unique, unique.Pairwise (fun a b => first100 a ≠ first100 b) →
      (dedupAux unique l).Pairwise (fun a b => first100 a ≠ first100 b) := by
  induction l with
  | nil =>
    intro unique h
    simpa [dedupAux] using h
  | cons c cs ih =>
    intro unique hp
    by_cases h : unique.any (fun e => first100 e == first100 c)
    · simpa [dedupAux, h] using ih unique hp
    · have hforall : ∀ e ∈ unique, ¬ first100 e = first100 c := by
        intro e he hcon
        exact absurd (List.any_eq_true.mpr ⟨e, he, by simp [hcon]⟩) h
      have hp' : (unique ++ [c]).Pairwise (fun a b => first100 a ≠ first100 b) := by
        rw [List.pairwise_append]
        refine ⟨hp, List.pairwise_singleton _ _, ?_⟩
        intro a ha b hb
        have hbc : b = c := by simpa using hb
        subst hbc
        exact hforall a ha
      simpa [dedupAux, h] using ih (unique ++ [c]) hp'

theorem dedupAux_covers (l : List String) :
    ∀ unique, ∀ d ∈ l, ∃ u ∈ dedupAux unique l, first100 u = first100 d := by
  induction l with
  | nil =>
    intro unique d hd
    simp at hd
  | cons c cs ih =>
    intro unique d hd
    rcases List.mem_cons.mp hd with rfl | hd'
    · by_cases h : unique.any (fun e => first100 e == first100 d)
      · obtain ⟨e, he, heq⟩ := List.any_eq_true.mp h
        refine ⟨e, ?_, beq_iff_eq.mp heq⟩
        simp only [dedupAux, h, if_true]
        exact dedupAux_contains cs unique e he
      · refine ⟨d, ?_, rfl⟩
        simp only [dedupAux, h, if_false, Bool.false_eq_true]
        exact dedupAux_contains cs (unique ++ [d]) d (by simp)
    · by_cases h : unique.any (fun e => first100 e == first100 c)
      · simp only [dedupAux, h, if_true]
        exact ih unique d hd'
      · simp only [dedupAux, h, if_false, Bool.false_eq_true]
        exact ih (unique ++ [c]) d hd'

theorem dedupAux_first_occ (l : List String) :
    ∀ unique, ∀ u ∈ dedupAux unique l,
      u ∈ unique
      ∨ (u ∈ l
         ∧ l.find? (fun c => first100 c == first100 u) = some u
         ∧ ∀ a ∈ unique, first100 a ≠ first100 u) := by
  induction l with
  | nil =>
    intro unique u hu
    exact Or.inl (by simpa [dedupAux] using hu)
  | cons c cs ih =>
    intro unique u hu
    by_cases h : unique.any (fun e => first100 e == first100 c)
    · simp only [dedupAux, h, if_true] at hu
      rcases ih unique u hu with hin | ⟨hmem, hfind, hnone⟩
      · exact Or.inl hin
      · refine Or.inr ⟨List.mem_cons_of_mem _ hmem, ?_, hnone⟩
        have hne : ¬ (first100 c == first100 u) = true := by
          intro hcon
          obtain ⟨a, ha, haeq⟩ := List.any_eq_true.mp h
          have h1 : first100 a = first100 c := by simpa using haeq
          have h2 : first100 c = first100 u := by simpa using hcon
          exact hnone a ha (h1.trans h2)
        have hskip : List.find? (fun x => first100 x == first100 u) (c :: cs)
            = List.find? (fun x => first100 x == first100 u) cs :=
          List.find?_cons_of_neg _ hne
        rw [hskip]
        exact hfind
    · simp only [dedupAux, h, if_false, Bool.false_eq_true] at hu
      have hnotc : ∀ x ∈ unique, ¬ first100 x = first100 c := by
        intro x hx hcon
        exact absurd (List.any_eq_true.mpr ⟨x, hx, by simp [hcon]⟩) h
      rcases ih (unique ++ [c]) u hu with hin | ⟨hmem, hfind, hnone⟩
      · rcases List.mem_append.mp hin with hin' | hin'
        · exact Or.inl hin'
        · have huc : u = c := by simpa using hin'
          subst huc
          refine Or.inr ⟨List.mem_cons_self _ _, ?_, hnotc⟩
          exact List.find?_cons_of_pos _ (by simp)
      · refine Or.inr ⟨List.mem_cons_of_mem _ hmem, ?_, ?_⟩
        · have hne : ¬ (first100 c == first100 u) = true := by
            intro hcon
            exact hnone c (by simp) (by simpa using hcon)
          have hskip : List.find? (fun x => first100 x == first100 u) (c :: cs)
              = List.find? (fun x => first100 x == first100 u) cs :=
            List.find?_cons_of_neg _ hne
          rw [hskip]
          exact hfind
        · intro a ha
          exact hnone a (List.mem_append_left _ ha)

/-! ## Claim C6 -/

/-- C6: above the 10000-character threshold, clause extraction runs over
5000/500 overlapping chunks and merges the per-chunk clause lists so that
no two returned clauses share an identical first-100-character segment
(the code's key is that segment stripped, which is a stronger
deduplication); the result is a sublist of the flattened per-chunk clause
stream, every dropped candidate is represented by a kept clause with the
same key, and each kept clause is the FIRST candidate bearing its key
(first occurrence wins). -/
theorem chunked_dedup_first100 (text : String) (hbig : 10000 < text.length) :
    extractClausesLarge text
      = deduplicateClauses ((chunkText text).map extractClauses).flatten
    ∧ (extractClausesLarge text).Pairwise
        (fun a b => a.data.take 100 ≠ b.data.take 100)
    ∧ (extractClausesLarge text).Sublist ((chunkText text).map extractClauses).flatten
    ∧ (∀ c ∈ ((chunkText text).map extractClauses).flatten,
         ∃ u ∈ extractClausesLarge text, first100 u = first100 c)
    ∧ (∀ u ∈ extractClausesLarge text,
         ((chunkText text).map extractClauses).flatten.find?
             (fun c => first100 c == first100 u) = some u) := by
  have heq : extractClausesLarge text
      = deduplicateClauses ((chunkText text).map extractClauses).flatten := by
    unfold extractClausesLarge
    rw [if_pos hbig]
  refine ⟨heq, ?_, ?_, ?_, ?_⟩
  · rw [heq]
    have hpw := dedupAux_pairwise (((chunkText text).map extractClauses).flatten) []
      List.Pairwise.nil
    refine hpw.imp ?_
    intro a b hne hraw
    refine hne ?_
    show pyStrip (String.mk (a.data.take 100)) = pyStrip (String.mk (b.data.take 100))
    rw [hraw]
  · rw [heq]
    obtain ⟨s, hs, hsub⟩ := dedupAux_shape (((chunkText text).map extractClauses).flatten) []
    unfold deduplicateClauses
    rw [hs]
    simpa using hsub
  · intro c hc
    rw [heq]
    exact dedupAux_covers _ [] c hc
  · intro u hu
    rw [heq] at hu
    rcases dedupAux_first_occ (((chunkText text).map extractClauses).flatten) [] u hu
      with hin | ⟨_, hfind, _⟩
    · simp at hin
    · exact hfind

/-- Concrete large input for the C6 witness. -/
def bigText : String := String.mk (List.replicate 10001 'a')

theorem bigText_big : 10000 < bigText.length := by
  have h : bigText.length = (List.replicate 10001 'a').length := rfl
  rw [h, List.length_replicate]
  norm_num

/-- Witness for C6 at a concrete 10001-character input. -/
theorem chunked_dedup_first100_witness :
    extractClausesLarge bigText
      = deduplicateClauses ((chunkText bigText).map extractClauses).flatten
    ∧ (extractClausesLarge bigText).Pairwise
        (fun a b => a.data.take 100 ≠ b.data.take 100)
    ∧ (extractClausesLarge bigText).Sublist ((chunkText bigText).map extractClauses).flatten
    ∧ (∀ c ∈ ((chunkText bigText).map extractClauses).flatten,
         ∃ u ∈ extractClausesLarge bigText, first100 u = first100 c)
    ∧ (∀ u ∈ extractClausesLarge bigText,
         ((chunkText bigText).map extractClauses).flatten.find?
             (fun c => first100 c == first100 u) = some u) :=
  chunked_dedup_first100 bigText bigText_big

/-! ## LegalNER (app/core/ner.py)

`re.finditer(pattern, text, re.IGNORECASE)` is the oracle
`fi pattern text : Except String (List NerMatch)`, returning the match
records in document order or failing (the exception the method's `try`
absorbs).  The registry `self.patterns` is a dict in insertion order. -/

/-- One regex match: matched text, `match.start()`, `match.end()`. -/
structure NerMatch where
  text : String
  start : Nat
  stop : Nat
deriving Repr, DecidableEq

/-- One record in an entity family list. -/
structure Entity where
  text : String
  start : Nat
  stop : Nat
  confidence : ℚ
  context : String
deriving Repr

/-- Registry `LegalNER.patterns`, in declaration order. -/
def nerPatterns : List (String × List String) :=
  [ ("dates",
     ["\\b\\d\x7b1,2\x7d[/-]\\d\x7b1,2\x7d[/-]\\d\x7b2,4\x7d\\b",
      "\\b\\d\x7b1,2\x7d\\s+(January|February|March|April|May|June|July|August|September|October|November|December)\\s+\\d\x7b2,4\x7d\\b",
      "\\b(January|February|March|April|May|June|July|August|September|October|November|December)\\s+\\d\x7b1,2\x7d,?\\s+\\d\x7b2,4\x7d\\b"]),
    ("monetary_values",
     ["\\$[\\d,]+\\.?\\d*", "\\b\\d+\\s*dollars?\\b", "\\b\\d+\\s*USD\\b"]),
    ("parties",
     ["\\b[A-Z][a-z]+\\s+[A-Z][a-z]+\\s*(?:Inc\\.?|LLC|Corp\\.?|Corporation|Company|Ltd\\.?|Limited)?\\b",
      "\\b(?:The\\s+)?[A-Z][A-Za-z\\s&]+(?:Inc\\.?|LLC|Corp\\.?|Corporation|Company|Ltd\\.?|Limited)\\b"]),
    ("addresses",
     ["\\b\\d+\\s+[A-Za-z\\s]+(?:Street|St\\.?|Avenue|Ave\\.?|Road|Rd\\.?|Boulevard|Blvd\\.?|Drive|Dr\\.?|Lane|Ln\\.?|Way|Court|Ct\\.?)\\b"]),
    ("phone_numbers",
     ["\\b\\d\x7b3\x7d[-.]?\\d\x7b3\x7d[-.]?\\d\x7b4\x7d\\b",
      "\\(\\d\x7b3\x7d\\)\\s*\\d\x7b3\x7d[-.]?\\d\x7b4\x7d\\b"]),
    ("email_addresses",
     ["\\b[A-Za-z0-9._%+-]+@[A-Za-z0-9.-]+\\.[A-Z|a-z]\x7b2,\x7d\\b"]),
    ("legal_terms",
     ["\\b(?:whereas|therefore|hereby|herein|hereof|hereunder|notwithstanding|pursuant|covenant|indemnify|liability|breach|termination|confidential|proprietary)\\b"]),
    ("obligations",
     ["\\b(?:shall|must|will|agree to|required to|obligated to|responsible for)\\b[^.]*"]),
    ("durations",
     ["\\b\\d+\\s*(?:days?|weeks?|months?|years?)\\b",
      "\\b(?:one|two|three|four|five|six|seven|eight|nine|ten)\\s+(?:days?|weeks?|months?|years?)\\b"]) ]

/-- `LegalNER._get_context`: 50 characters either side, clipped, stripped. -/
def getContext (text : String) (start stop : Nat) : String :=
  pyStrip (strSlice text (start - 50) (stop + 50))

/-- Entity record built from one match in `extract_entities`. -/
def mkEntity (text : String) (m : NerMatch) : Entity :=
  { text := m.text, start := m.start, stop := m.stop, confidence := 4/5,
    context := getContext text m.start m.stop }

/-- Duplicate check of `extract_entities`: append the entity unless an
already-kept entity of the family has case-insensitively equal text. -/
def dedupInsert (acc : List Entity) (e : Entity) : List Entity :=
  if acc.any (fun x => pyLower x.text == pyLower e.text) then acc else acc ++ [e]

/-- Per-family loop of `extract_entities`: every pattern's matches, in
order, inserted with the duplicate check. -/
def familyFold (fi : String → String → Except String (List NerMatch)) (text : String)
    (pats : List String) : Except String (List Entity) :=
  pats.foldlM
    (fun es p => do
      let ms ← fi p text
      pure (ms.foldl (fun es2 m => dedupInsert es2 (mkEntity text m)) es))
    []

/-- Body of `LegalNER.extract_entities` (inside its `try`). -/
def extractEntitiesCore (fi : String → String → Except String (List NerMatch))
    (text : String) : Except String (List (String × List Entity)) :=
  nerPatterns.foldlM
    (fun acc fam => do
      let es ← familyFold fi text fam.2
      pure (acc ++ [(fam.1, es)]))
    []

/-- `LegalNER.extract_entities`: the `except` handler turns any failure of
the body into the empty dict, for every family at once. -/
def extractEntities (fi : String → String → Except String (List NerMatch))
    (text : String) : List (String × List Entity) :=
  match extractEntitiesCore fi text with
  | Except.ok r => r
  | Except.error _ => []

/-- Specification-side candidate stream of one family: all the matches of
its patterns, in pattern order, as entity records, without deduplication. -/
def familyCandidates (fi : String → String → Except String (List NerMatch))
    (text : String) (pats : List String) : Except String (List Entity) :=
  pats.foldlM
    (fun acc p => do
      let ms ← fi p text
      pure (acc ++ ms.map (mkEntity text)))
    []

/-- Specification-side deduplication: fold the duplicate check over a
candidate stream. -/
def nerDedup (cands : List Entity) : List Entity := cands.foldl dedupInsert []

theorem familyFold_go (fi : String → String → Except String (List NerMatch))
    (text : String) :
    ∀ (pats : List String) (es acc : List Entity), es = acc.foldl dedupInsert [] →
      pats.foldlM
          (fun es p => do
            let ms ← fi p text
            pure (ms.foldl (fun es2 m => dedupInsert es2 (mkEntity text m)) es))
          es
        = Except.map (fun cands => cands.foldl dedupInsert [])
            (pats.foldlM
              (fun acc p => do
                let ms ← fi p text
                pure (acc ++ ms.map (mkEntity text)))
              acc) := by
  intro pats
  induction pats with
  | nil =>
    intro es acc hinv
    subst hinv
    rfl
  | cons p ps ih =>
    intro es acc hinv
    simp only [List.foldlM_cons]
    cases hfi : fi p text with
    | error e => rfl
    | ok ms =>
      show ps.foldlM _ (ms.foldl (fun es2 m => dedupInsert es2 (mkEntity text m)) es)
          = Except.map (fun cands => cands.foldl dedupInsert [])
              (ps.foldlM _ (acc ++ ms.map (mkEntity text)))
      refine ih _ _ ?_
      rw [List.foldl_append, ← hinv, List.foldl_map]

theorem familyFold_ok (fi : String → String → Except String (List NerMatch))
    (text : String) (pats : List String) (l : List Entity)
    (h : familyFold fi text pats = Except.ok l) :
    ∃ cands, familyCandidates fi text pats = Except.ok cands ∧ l = nerDedup cands := by
  have hgo := familyFold_go fi text pats [] [] rfl
  rw [show (familyFold fi text pats
      = pats.foldlM
          (fun es p => do
            let ms ← fi p text
            pure (ms.foldl (fun es2 m => dedupInsert es2 (mkEntity text m)) es))
          []) from rfl, hgo] at h
  cases hc : familyCandidates fi text pats with
  | error e =>
    rw [show (pats.foldlM
        (fun acc p => do
          let ms ← fi p text
          pure (acc ++ ms.map (mkEntity text)))
        [] : Except String (List Entity)) = familyCandidates fi text pats from rfl, hc] at h
    simp [Except.map] at h
  | ok cands =>
    rw [show (pats.foldlM
        (fun acc p => do
          let ms ← fi p text
          pure (acc ++ ms.map (mkEntity text)))
        [] : Except String (List Entity)) = familyCandidates fi text pats from rfl, hc] at h
    simp only [Except.map] at h
    exact ⟨cands, rfl, (Except.ok.injEq _ _ ▸ h).symm⟩

theorem extractEntitiesCore_go (fi : String → String → Except String (List NerMatch))
    (text : String) :
    ∀ (fams : List (String × List String)) (acc r : List (String × List Entity)),
      fams.foldlM
          (fun acc fam => do
            let es ← familyFold fi text fam.2
            pure (acc ++ [(fam.1, es)]))
          acc = Except.ok r →
      r.map Prod.fst = acc.map Prod.fst ++ fams.map Prod.fst
      ∧ ∀ p ∈ r, p ∈ acc ∨ ∃ pats, (p.1, pats) ∈ fams ∧ familyFold fi text pats = Except.ok p.2 := by
  intro fams
  induction fams with
  | nil =>
    intro acc r h
    have hr : acc = r := by
      have h2 := h
      simp only [List.foldlM] at h2
      exact Except.ok.inj h2
    subst hr
    exact ⟨by simp, fun p hp => Or.inl hp⟩
  | cons fam fams ih =>
    intro acc r h
    rw [List.foldlM_cons] at h
    cases hff : familyFold fi text fam.2 with
    | error e =>
      rw [hff] at h
      exact absurd
        (show (Except.error e : Except String (List (String × List Entity)))
            = Except.ok r from h)
        (by simp)
    | ok es =>
      rw [hff] at h
      have h' : fams.foldlM
          (fun acc fam => do
            let es ← familyFold fi text fam.2
            pure (acc ++ [(fam.1, es)]))
          (acc ++ [(fam.1, es)]) = Except.ok r := h
      obtain ⟨hnames, hmem⟩ := ih (acc ++ [(fam.1, es)]) r h'
      constructor
      · rw [hnames]
        simp
      · intro p hp
        rcases hmem p hp with hpacc | ⟨pats, hpats, hok⟩
        · rcases List.mem_append.mp hpacc with hin | hin
          · exact Or.inl hin
          · have hpf : p = (fam.1, es) := by simpa using hin
            subst hpf
            exact Or.inr ⟨fam.2, List.mem_cons_self _ _, hff⟩
        · exact Or.inr ⟨pats, List.mem_cons_of_mem _ hpats, hok⟩

/-- On success, the extraction result has exactly the registered families
in registry order, each produced by its own family loop. -/
theorem extractEntities_entries (fi : String → String → Except String (List NerMatch))
    (text : String) (r : List (String × List Entity))
    (h : extractEntitiesCore fi text = Except.ok r) :
    r.map Prod.fst = nerPatterns.map Prod.fst
    ∧ ∀ p ∈ r, ∃ pats, (p.1, pats) ∈ nerPatterns ∧ familyFold fi text pats = Except.ok p.2 := by
  obtain ⟨hnames, hmem⟩ := extractEntitiesCore_go fi text nerPatterns [] r h
  refine ⟨by simpa using hnames, ?_⟩
  intro p hp
  rcases hmem p hp with hin | hex
  · simp at hin
  · exact hex

/-! ## Properties of the duplicate-check fold -/

theorem nerDedupFold_shape (cands : List Entity) :
    ∀ acc, ∃ s, cands.foldl dedupInsert acc = acc ++ s ∧ s.Sublist cands := by
  induction cands with
  | nil =>
    intro acc
    exact ⟨[], by simp, List.nil_sublist _⟩
  | cons c cs ih =>
    intro acc
    by_cases h : acc.any (fun x => pyLower x.text == pyLower c.text)
    · obtain ⟨s, hs, hsub⟩ := ih acc
      refine ⟨s, ?_, hsub.cons c⟩
      simpa [dedupInsert, h] using hs
    · obtain ⟨s, hs, hsub⟩ := ih (acc ++ [c])
      refine ⟨c :: s, ?_, hsub.cons₂ c⟩
      simp only [List.foldl_cons, dedupInsert, h, if_false, Bool.false_eq_true]
      rw [hs, List.append_assoc, List.singleton_append]

theorem nerDedupFold_contains (cands : List Entity) (acc : List Entity) :
    ∀ e ∈ acc, e ∈ cands.foldl dedupInsert acc := by
  intro e he
  obtain ⟨s, hs, _⟩ := nerDedupFold_shape cands acc
  rw [hs]
  exact List.mem_append_left _ he

theorem nerDedupFold_pairwise (cands : List Entity) :
    ∀ acc, acc.Pairwise (fun a b => pyLower a.text ≠ pyLower b.text) →
      (cands.foldl dedupInsert acc).Pairwise (fun a b => pyLower a.text ≠ pyLower b.text) := by
  induction cands with
  | nil =>
    intro acc h
    simpa using h
  | cons c cs ih =>
    intro acc hp
    by_cases h : acc.any (fun x => pyLower x.text == pyLower c.text)
    · simpa [dedupInsert, h] using ih acc hp
    · have hforall : ∀ x ∈ acc, ¬ pyLower x.text = pyLower c.text := by
        intro x hx hcon
        exact absurd (List.any_eq_true.mpr ⟨x, hx, by simp [hcon]⟩) h
      have hp' : (acc ++ [c]).Pairwise (fun a b => pyLower a.text ≠ pyLower b.text) := by
        rw [List.pairwise_append]
        refine ⟨hp, List.pairwise_singleton _ _, ?_⟩
        intro a ha b hb
        have hbc : b = c := by simpa using hb
        subst hbc
        exact hforall a ha
      have hstep : (c :: cs).foldl dedupInsert acc = cs.foldl dedupInsert (acc ++ [c]) := by
        simp [dedupInsert, h]
      rw [hstep]
      exact ih (acc ++ [c]) hp'

theorem nerDedupFold_covers (cands : List Entity) :
    ∀ acc, ∀ d ∈ cands, ∃ e ∈ cands.foldl dedupInsert acc, pyLower e.text = pyLower d.text := by
  induction cands with
  | nil =>
    intro acc d hd
    simp at hd
  | cons c cs ih =>
    intro acc d hd
    rcases List.mem_cons.mp hd with rfl | hd'
    · by_cases h : acc.any (fun x => pyLower x.text == pyLower d.text)
      · obtain ⟨e, he, heq⟩ := List.any_eq_true.mp h
        refine ⟨e, ?_, by simpa using heq⟩
        have hstep : (d :: cs).foldl dedupInsert acc = cs.foldl dedupInsert acc := by
          simp [dedupInsert, h]
        rw [hstep]
        exact nerDedupFold_contains cs acc e he
      · refine ⟨d, ?_, rfl⟩
        have hstep : (d :: cs).foldl dedupInsert acc = cs.foldl dedupInsert (acc ++ [d]) := by
          simp [dedupInsert, h]
        rw [hstep]
        exact nerDedupFold_contains cs (acc ++ [d]) d (by simp)
    · by_cases h : acc.any (fun x => pyLower x.text == pyLower c.text)
      · have hstep : (c :: cs).foldl dedupInsert acc = cs.foldl dedupInsert acc := by
          simp [dedupInsert, h]
        rw [hstep]
        exact ih acc d hd'
      · have hstep : (c :: cs).foldl dedupInsert acc = cs.foldl dedupInsert (acc ++ [c]) := by
          simp [dedupInsert, h]
        rw [hstep]
        exact ih (acc ++ [c]) d hd'

theorem nerDedupFold_first_occ (cands : List Entity) :
    ∀ acc, ∀ e ∈ cands.foldl dedupInsert acc,
      e ∈ acc
      ∨ (e ∈ cands
         ∧ cands.find? (fun c => pyLower c.text == pyLower e.text) = some e
         ∧ ∀ a ∈ acc, pyLower a.text ≠ pyLower e.text) := by
  induction cands with
  | nil =>
    intro acc e he
    exact Or.inl he
  | cons c cs ih =>
    intro acc e he
    by_cases h : acc.any (fun x => pyLower x.text == pyLower c.text)
    · have hstep : (c :: cs).foldl dedupInsert acc = cs.foldl dedupInsert acc := by
        simp [dedupInsert, h]
      rw [hstep] at he
      rcases ih acc e he with hin | ⟨hmem, hfind, hnone⟩
      · exact Or.inl hin
      · refine Or.inr ⟨List.mem_cons_of_mem _ hmem, ?_, hnone⟩
        have hne : ¬ (pyLower c.text == pyLower e.text) = true := by
          intro hcon
          obtain ⟨a, ha, haeq⟩ := List.any_eq_true.mp h
          have h1 : pyLower a.text = pyLower c.text := by simpa using haeq
          have h2 : pyLower c.text = pyLower e.text := by simpa using hcon
          exact hnone a ha (h1.trans h2)
        have hskip : List.find? (fun x => pyLower x.text == pyLower e.text) (c :: cs)
            = List.find? (fun x => pyLower x.text == pyLower e.text) cs :=
          List.find?_cons_of_neg _ hne
        rw [hskip]
        exact hfind
    · have hstep : (c :: cs).foldl dedupInsert acc = cs.foldl dedupInsert (acc ++ [c]) := by
        simp [dedupInsert, h]
      rw [hstep] at he
      have hnotc : ∀ x ∈ acc, ¬ pyLower x.text = pyLower c.text := by
        intro x hx hcon
        exact absurd (List.any_eq_true.mpr ⟨x, hx, by simp [hcon]⟩) h
      rcases ih (acc ++ [c]) e he with hin | ⟨hmem, hfind, hnone⟩
      · rcases List.mem_append.mp hin with hin' | hin'
        · exact Or.inl hin'
        · have hec : e = c := by simpa using hin'
          subst hec
          refine Or.inr ⟨List.mem_cons_self _ _, ?_, hnotc⟩
          exact List.find?_cons_of_pos _ (by simp)
      · refine Or.inr ⟨List.mem_cons_of_mem _ hmem, ?_, ?_⟩
        · have hne : ¬ (pyLower c.text == pyLower e.text) = true := by
            intro hcon
            exact hnone c (by simp) (by simpa using hcon)
          have hskip : List.find? (fun x => pyLower x.text == pyLower e.text) (c :: cs)
              = List.find? (fun x => pyLower x.text == pyLower e.text) cs :=
            List.find?_cons_of_neg _ hne
          rw [hskip]
          exact hfind
        · intro a ha
          exact hnone a (List.mem_append_left _ ha)

/-! ## Claim C8 -/

/-- C8 (amended): `extract_entities` never raises (it is total), but its
single `try` wraps the whole family loop, so an internal failure empties
the result for ALL families at once, not only the affected one: the result
is either the full family table (in registry order) or entirely empty. -/
theorem ner_error_empties_all_families
    (fi : String → String → Except String (List NerMatch)) (text : String) :
    extractEntities fi text = []
    ∨ (extractEntities fi text).map Prod.fst = nerPatterns.map Prod.fst := by
  unfold extractEntities
  cases hcore : extractEntitiesCore fi text with
  | error e => exact Or.inl rfl
  | ok r => exact Or.inr (extractEntities_entries fi text r hcore).1

/-- Oracle for the C8 counterexample: the first monetary pattern fails,
the first date pattern has a match, every other pattern has none. -/
def fiOneFailure : String → String → Except String (List NerMatch) := fun p _ =>
  if p = "\\$[\\d,]+\\.?\\d*" then Except.error "regex backend failure"
  else if p = "\\b\\d\x7b1,2\x7d[/-]\\d\x7b1,2\x7d[/-]\\d\x7b2,4\x7d\\b" then
    Except.ok [{ text := "01/02/2020", start := 0, stop := 10 }]
  else Except.ok []

/-- Same oracle with the monetary pattern merely returning no matches. -/
def fiNoFailure : String → String → Except String (List NerMatch) := fun p _ =>
  if p = "\\$[\\d,]+\\.?\\d*" then Except.ok []
  else if p = "\\b\\d\x7b1,2\x7d[/-]\\d\x7b1,2\x7d[/-]\\d\x7b2,4\x7d\\b" then
    Except.ok [{ text := "01/02/2020", start := 0, stop := 10 }]
  else Except.ok []

/-- Counterexample to C8 as stated: when only the monetary family's
pattern fails, the unaffected dates family (which has a match, as the
no-failure oracle shows) is wiped as well — the whole result is empty,
not just the affected family. -/
theorem ner_error_wipes_unaffected_family_counterexample :
    (extractEntities fiOneFailure "01/02/2020").lookup "dates" = none
    ∧ (((extractEntities fiNoFailure "01/02/2020").lookup "dates").getD []).map
        Entity.text = ["01/02/2020"] := by
  constructor
  · rfl
  · rfl

/-! ## Claim C5 (LegalNER side) -/

/-- C5 (amended, LegalNER extractor): every family list in the extraction
result is the duplicate-check fold of that family's candidate match
stream; no two records of a family have case-insensitively equal text;
and the fold keeps exactly the first occurrence of each case-folded text,
retaining that occurrence's record (hence its span and context): each kept
record is a candidate and is the first candidate with its case-folded
text, and every candidate is represented by a kept record. -/
theorem ner_dedup_case_insensitive :
    (∀ (fi : String → String → Except String (List NerMatch)) (text : String),
       ∀ p ∈ extractEntities fi text,
         ∃ pats cands, (p.1, pats) ∈ nerPatterns
           ∧ familyCandidates fi text pats = Except.ok cands
           ∧ p.2 = nerDedup cands
           ∧ p.2.Pairwise (fun a b => pyLower a.text ≠ pyLower b.text))
    ∧ (∀ cands : List Entity,
         (nerDedup cands).Sublist cands
         ∧ (∀ c ∈ cands, ∃ e ∈ nerDedup cands, pyLower e.text = pyLower c.text)
         ∧ (∀ e ∈ nerDedup cands,
              e ∈ cands
              ∧ cands.find? (fun c => pyLower c.text == pyLower e.text) = some e)) := by
  constructor
  · intro fi text p hp
    unfold extractEntities at hp
    cases hcore : extractEntitiesCore fi text with
    | error e =>
      rw [hcore] at hp
      simp at hp
    | ok r =>
      rw [hcore] at hp
      obtain ⟨pats, hpats, hok⟩ := (extractEntities_entries fi text r hcore).2 p hp
      obtain ⟨cands, hcands, hdedup⟩ := familyFold_ok fi text pats p.2 hok
      refine ⟨pats, cands, hpats, hcands, hdedup, ?_⟩
      rw [hdedup]
      exact nerDedupFold_pairwise cands [] List.Pairwise.nil
  · intro cands
    refine ⟨?_, ?_, ?_⟩
    · obtain ⟨s, hs, hsub⟩ := nerDedupFold_shape cands []
      unfold nerDedup
      rw [hs]
      simpa using hsub
    · intro c hc
      exact nerDedupFold_covers cands [] c hc
    · intro e he
      rcases nerDedupFold_first_occ cands [] e he with hin | ⟨hmem, hfind, _⟩
      · simp at hin
      · exact ⟨hmem, hfind⟩

/-! ## MinimalLegalDocumentAnalyzer._extract_entities (analyzer_minimal.py)

The minimal extractor deduplicates with `set(matches)`: exact, case
SENSITIVE string equality, and keeps no spans or contexts.  `findall` is
the regex oracle for `re.findall(pattern, text, re.IGNORECASE)` (and, for
the party patterns, `re.findall(pattern, text)` returning group 1). -/

/-- Record of the minimal extractor's `entities` lists. -/
structure MinEntity where
  text : String
  type : String
  confidence : ℚ
deriving Repr

/-- Record of the minimal extractor's `key_parties` list. -/
structure KeyParty where
  name : String
  type : String
deriving Repr

/-- Record of the minimal extractor's `obligations` list. -/
structure MinObligation where
  text : String
  type : String
deriving Repr

/-- Result of `MinimalLegalDocumentAnalyzer._extract_entities`. -/
structure MinEntitiesResult where
  entities : List (String × List MinEntity)
  key_parties : List KeyParty
  obligations : List MinObligation
  dates_and_deadlines : List MinEntity
deriving Repr

/-- Registry `MinimalLegalDocumentAnalyzer.entity_patterns`. -/
def minEntityPatterns : List (String × String) :=
  [ ("monetary_values", "\\$[\\d,]+(?:\\.\\d\x7b2\x7d)?"),
    ("dates",
     "\\b\\d\x7b1,2\x7d[/-]\\d\x7b1,2\x7d[/-]\\d\x7b2,4\x7d\\b|\\b(?:January|February|March|April|May|June|July|August|September|October|November|December)\\s+\\d\x7b1,2\x7d,?\\s+\\d\x7b4\x7d\\b"),
    ("percentages", "\\d+(?:\\.\\d+)?%"),
    ("phone_numbers", "\\b\\d\x7b3\x7d[-.]?\\d\x7b3\x7d[-.]?\\d\x7b4\x7d\\b"),
    ("email_addresses", "\\b[A-Za-z0-9._%+-]+@[A-Za-z0-9.-]+\\.[A-Z|a-z]\x7b2,\x7d\\b") ]

/-- Party patterns of `_extract_entities` (group 1 is what findall yields). -/
def minPartyPatterns : List String :=
  [ "\\b([A-Z][a-z]+ (?:Inc|LLC|Corp|Corporation|Company|Ltd)\\.?)\\b",
    "\\b([A-Z][a-z]+ [A-Z][a-z]+)\\b" ]

/-- Obligation patterns of `_extract_entities`. -/
def minObligationPatterns : List String :=
  [ "[^.]*(?:shall|must|will|required to|obligated to)[^.]*\\.",
    "[^.]*(?:agrees to|undertakes to)[^.]*\\." ]

/-- `MinimalLegalDocumentAnalyzer._extract_entities`. -/
def minExtractEntities (findall : String → String → List String) (text : String) :
    MinEntitiesResult :=
  let entities := minEntityPatterns.map
    (fun tp =>
      (tp.1, (pySet (findall tp.2 text)).map
        (fun m => ({ text := m, type := tp.1, confidence := 4/5 } : MinEntity))))
  let key_parties := (minPartyPatterns.map
    (fun pattern =>
      ((findall pattern text).take 5).map
        (fun m =>
          ({ name := m,
             type :=
               if ["Inc", "LLC", "Corp"].any (fun x => pyIn x m) then "organization"
               else "person" } : KeyParty)))).flatten
  let obligations := (minObligationPatterns.map
    (fun pattern =>
      ((findall pattern text).take 5).map
        (fun m => ({ text := pyStrip m, type := "obligation" } : MinObligation)))).flatten
  let dates := ((entities.lookup "dates").getD []).map
    (fun d => ({ text := d.text, type := "date", confidence := 4/5 } : MinEntity))
  { entities := entities, key_parties := key_parties, obligations := obligations,
    dates_and_deadlines := dates }

/-- Oracle for the C5 counterexample: the email pattern matches the same
address twice with different casing (as IGNORECASE findall does). -/
def fiEmailDup : String → String → List String := fun p _ =>
  if p = "\\b[A-Za-z0-9._%+-]+@[A-Za-z0-9.-]+\\.[A-Z|a-z]\x7b2,\x7d\\b"
  then ["a@b.com", "A@b.com"] else []

/-- Counterexample to C5 as stated: the minimal analyzer's extractor
(cited by the claim) deduplicates with `set(...)`, i.e. case-sensitively,
so two records of the email family with case-insensitively equal texts
both survive. -/
theorem min_extract_case_dup_counterexample :
    (((minExtractEntities fiEmailDup "a@b.com A@b.com").entities.lookup
        "email_addresses").getD []).map MinEntity.text = ["a@b.com", "A@b.com"]
    ∧ pyLower "a@b.com" = pyLower "A@b.com"
    ∧ "a@b.com" ≠ "A@b.com" := by
  refine ⟨by decide, by decide, by decide⟩

end Legalise
